import Mathlib

set_option maxRecDepth 20000

/-!
Verification of the uhttpd core (uhttpd-utils.c, uhttpd-file.c) against its
natural-language specification.  C byte strings are modelled as `List Char`
with one `Char` per byte (values 0..255); buffers are NUL-free lists unless
stated otherwise.  External collaborators (the filesystem `stat`, `realpath`,
`getcwd`, `strptime`/`strftime`, `crypt`, the password database, `scandir`
and the MIME table from uhttpd-mimetypes.h) are parameters of the embedding.
-/

namespace Uhttpd

def nul : Char := Char.ofNat 0

/-- C-locale `isdigit` on a byte-valued char. -/
def isDigitB (c : Char) : Bool := 48 ≤ c.toNat && c.toNat ≤ 57

/-- C-locale uppercase letter test. -/
def isUpperB (c : Char) : Bool := 65 ≤ c.toNat && c.toNat ≤ 90

/-- C-locale lowercase letter test. -/
def isLowerB (c : Char) : Bool := 97 ≤ c.toNat && c.toNat ≤ 122

/-- C-locale `isalnum` on a byte-valued char. -/
def isalnumB (c : Char) : Bool := isDigitB c || isUpperB c || isLowerB c

/-- C-locale `isxdigit`. -/
def isxdigitB (c : Char) : Bool :=
  isDigitB c || (65 ≤ c.toNat && c.toNat ≤ 70) || (97 ≤ c.toNat && c.toNat ≤ 102)

/-- C `tolower` (ASCII). -/
def tolowerB (c : Char) : Char :=
  if isUpperB c then Char.ofNat (c.toNat + 32) else c

/-- The `hex(x)` macro of `uh_urldecode`:
`((x) <= '9') ? x - '0' : ((x) <= 'F') ? x - 'A' + 10 : x - 'a' + 10`. -/
def hexMacro (c : Char) : Nat :=
  if c.toNat ≤ 57 then c.toNat - 48
  else if c.toNat ≤ 70 then c.toNat - 65 + 10
  else c.toNat - 97 + 10

/-! ## uh_urldecode / uh_urlencode (uhttpd-utils.c lines 352-423) -/

/-- Loop body of `uh_urldecode`.  `out` is the bytes written so far (the C
`len` is `out.length`), the second list is the unread input.  The loop stops
when the input is exhausted (returns the decoded length, modelled as the
bytes) or the output buffer is full (`len = blen`, returns -1 since `i` has
not reached `slen`); a `%` not followed by two hex digits returns -2. -/
def urldecodeAux (blen : Nat) : List Char → List Char → Except Int (List Char)
  | out, [] => Except.ok out
  | out, c :: rest =>
    if blen ≤ out.length then Except.error (-1)
    else if c = '%' then
      match rest with
      | h1 :: h2 :: r =>
        if isxdigitB h1 && isxdigitB h2 then
          urldecodeAux blen (out ++ [Char.ofNat ((16 * hexMacro h1 + hexMacro h2) % 256)]) r
        else Except.error (-2)
      | _ => Except.error (-2)
    else urldecodeAux blen (out ++ [c]) rest

/-- `uh_urldecode(buf, blen, src, slen)`: the result is the decoded byte
string, or the C error code. -/
def uh_urldecode (blen : Nat) (src : List Char) : Except Int (List Char) :=
  urldecodeAux blen [] src

/-- The `hex[]` table of `uh_urlencode`: `"0123456789abcdef"`. -/
def hexLowerTable : List Char := String.toList "0123456789abcdef"

/-- RFC 3986 unreserved test as written in `uh_urlencode`:
`isalnum(src[i]) || '-' || '_' || '.' || '~'`. -/
def isUnreservedB (c : Char) : Bool :=
  isalnumB c || c = '-' || c = '_' || c = '.' || c = '~'

/-- Loop body of `uh_urlencode`: unreserved bytes are copied, every other
byte becomes `%` followed by two lowercase hex digits (`(src[i] >> 4) & 15`
and `src[i] & 15`, which for byte values are `/16` and `%16`). -/
def urlencodeAux (blen : Nat) : List Char → List Char → Except Int (List Char)
  | out, [] => Except.ok out
  | out, c :: rest =>
    if blen ≤ out.length then Except.error (-1)
    else if isUnreservedB c then urlencodeAux blen (out ++ [c]) rest
    else if out.length + 3 ≤ blen then
      urlencodeAux blen
        (out ++ [ '%', hexLowerTable.getD (c.toNat / 16 % 16) nul,
                  hexLowerTable.getD (c.toNat % 16) nul ]) rest
    else Except.error (-1)

/-- `uh_urlencode(buf, blen, src, slen)`. -/
def uh_urlencode (blen : Nat) (src : List Char) : Except Int (List Char) :=
  urlencodeAux blen [] src

/-- Character set the spec allows in encoder output:
`[A-Za-z0-9-_.~%0-9a-f]`, i.e. unreserved bytes and `%` (the hex digits
`0-9a-f` are already alphanumeric). -/
def urlOutAllowed (c : Char) : Bool := isUnreservedB c || c = '%'

theorem urlencodeAux_all_unreserved (rest : List Char) :
    ∀ out blen, (∀ c ∈ rest, isUnreservedB c = true) →
    out.length + rest.length ≤ blen →
    urlencodeAux blen out rest = Except.ok (out ++ rest) := by
  induction rest with
  | nil => intro out blen _ _; simp [urlencodeAux]
  | cons c rest ih =>
    intro out blen hres hlen
    have hc : isUnreservedB c = true := hres c (List.mem_cons_self c rest)
    have hout : ¬ blen ≤ out.length := by
      simp only [List.length_cons] at hlen; omega
    have := ih (out ++ [c]) blen (fun d hd => hres d (List.mem_cons_of_mem c hd))
      (by simp only [List.length_append, List.length_cons, List.length_nil] at hlen ⊢; omega)
    simp only [urlencodeAux, if_neg hout, hc, if_pos rfl, this]
    simp

theorem urldecodeAux_no_escape (rest : List Char) :
    ∀ out blen, (∀ c ∈ rest, c ≠ '%') →
    out.length + rest.length ≤ blen →
    urldecodeAux blen out rest = Except.ok (out ++ rest) := by
  induction rest with
  | nil => intro out blen _ _; simp [urldecodeAux]
  | cons c rest ih =>
    intro out blen hres hlen
    have hc : ¬ (c = '%') := hres c (List.mem_cons_self c rest)
    have hout : ¬ blen ≤ out.length := by
      simp only [List.length_cons] at hlen; omega
    have hstep := ih (out ++ [c]) blen (fun d hd => hres d (List.mem_cons_of_mem c hd))
      (by simp only [List.length_append, List.length_cons, List.length_nil] at hlen ⊢; omega)
    have hgoal : urldecodeAux blen out (c :: rest) = urldecodeAux blen (out ++ [c]) rest := by
      cases rest with
      | nil => simp [urldecodeAux, hout, hc]
      | cons h1 t =>
        cases t with
        | nil => simp [urldecodeAux, hout, hc]
        | cons h2 r => simp [urldecodeAux, hout, hc]
    rw [hgoal, hstep]
    simp

theorem unreserved_not_percent {c : Char} (h : isUnreservedB c = true) : c ≠ '%' := by
  intro he
  subst he
  simp [isUnreservedB, isalnumB, isDigitB, isUpperB, isLowerB] at h

theorem urlencodeAux_charset (rest : List Char) :
    ∀ out blen res, urlencodeAux blen out rest = Except.ok res →
    (∀ c ∈ out, urlOutAllowed c = true) → ∀ c ∈ res, urlOutAllowed c = true := by
  induction rest with
  | nil =>
    intro out blen res hok hout
    simp only [urlencodeAux] at hok
    cases hok
    exact hout
  | cons c rest ih =>
    intro out blen res hok hout
    simp only [urlencodeAux] at hok
    split at hok
    · cases hok
    split at hok
    case isTrue hun =>
      refine ih _ blen res hok ?_
      intro d hd
      rcases List.mem_append.1 hd with h | h
      · exact hout d h
      · simp only [List.mem_singleton] at h
        subst h
        simp [urlOutAllowed, hun]
    split at hok
    case isTrue =>
      refine ih _ blen res hok ?_
      intro d hd
      rcases List.mem_append.1 hd with h | h
      · exact hout d h
      · have h16a : c.toNat / 16 % 16 < 16 := Nat.mod_lt _ (by norm_num)
        have h16b : c.toNat % 16 < 16 := Nat.mod_lt _ (by norm_num)
        have hall : ∀ i < 16, urlOutAllowed (hexLowerTable.getD i nul) = true := by decide
        simp only [List.mem_cons, List.mem_singleton, List.not_mem_nil, or_false] at h
        rcases h with h | h | h
        · subst h; rfl
        · subst h; exact hall _ h16a
        · subst h; exact hall _ h16b
    case isFalse => cases hok

/-- C7 (URL codec round-trip), first part: on byte strings of unreserved
characters the encoder is the identity, hence decode ∘ encode is the
identity (given buffers of at least the input length). -/
theorem url_roundtrip_unreserved (s : List Char)
    (hs : ∀ c ∈ s, isUnreservedB c = true) (b1 b2 : Nat)
    (h1 : s.length ≤ b1) (h2 : s.length ≤ b2) :
    uh_urlencode b1 s = Except.ok s ∧ uh_urldecode b2 s = Except.ok s := by
  constructor
  · have := urlencodeAux_all_unreserved s [] b1 hs (by simpa using h1)
    simpa [uh_urlencode] using this
  · have := urldecodeAux_no_escape s [] b2
      (fun c hc => unreserved_not_percent (hs c hc)) (by simpa using h2)
    simpa [uh_urldecode] using this

/-- C7: the claim, in both parts.  For unreserved inputs,
`decode (encode s) = s`; and every successful encoder output consists only
of characters from `[A-Za-z0-9-_.~%0-9a-f]` (percent escapes use the
lowercase table `"0123456789abcdef"`). -/
theorem C7_url_codec_roundtrip :
    (∀ (s : List Char) (b1 b2 : Nat), (∀ c ∈ s, isUnreservedB c = true) →
      s.length ≤ b1 → s.length ≤ b2 →
      (uh_urlencode b1 s).bind (fun t => uh_urldecode b2 t) = Except.ok s) ∧
    (∀ (s : List Char) (b : Nat) (out : List Char),
      uh_urlencode b s = Except.ok out → ∀ c ∈ out, urlOutAllowed c = true) := by
  constructor
  · intro s b1 b2 hs h1 h2
    obtain ⟨he, hd⟩ := url_roundtrip_unreserved s hs b1 b2 h1 h2
    rw [he]
    exact hd
  · intro s b out hok
    exact urlencodeAux_charset s [] b out hok (by intro c hc; cases hc)

/-- Witness for C7 at a concrete input: `s = "Az09-_.~"`. -/
theorem C7_url_codec_roundtrip_witness :
    (uh_urlencode 8 (String.toList "Az09-_.~")).bind
      (fun t => uh_urldecode 8 t) = Except.ok (String.toList "Az09-_.~") :=
  C7_url_codec_roundtrip.1 (String.toList "Az09-_.~") 8 8
    (by decide) (by decide) (by decide)

/-! ## uh_b64decode (uhttpd-utils.c lines 425-472) -/

/-- The character classification ladder of `uh_b64decode`: digits map to
52..61, uppercase to 0..25, lowercase to 26..51, `+` to 62, `/` to 63 and
`=` to 0; any other byte is skipped (`continue`). -/
def b64decVal (c : Char) : Option Nat :=
  if 48 ≤ c.toNat && c.toNat ≤ 57 then some (c.toNat - 48 + 52)
  else if 65 ≤ c.toNat && c.toNat ≤ 90 then some (c.toNat - 65)
  else if 97 ≤ c.toNat && c.toNat ≤ 122 then some (c.toNat - 97 + 26)
  else if c = '+' then some 62
  else if c = '/' then some 63
  else if c = '=' then some 0
  else none

/-- The three `(char)(cout >> 16)`, `(char)(cout >> 8)`, `(char)cout`
bytes emitted for one group. -/
def b64bytes3 (cout : Nat) : List Char :=
  [Char.ofNat (cout / 65536 % 256), Char.ofNat (cout / 256 % 256), Char.ofNat (cout % 256)]

/-- Loop of `uh_b64decode`.  `i` is the input index, `cout` the 32-bit
accumulator, `out` the bytes written so far.  The loop runs while
`i <= slen && src[i] != 0` (reading past the end of the NUL-terminated
input yields NUL and stops).  A group is flushed whenever the *input index*
satisfies `i % 4 == 3` and the current byte was recognised; on insufficient
room (`!(len + 3 < blen)`) the loop breaks. -/
def b64Aux (blen slen : Nat) : Nat → Nat → List Char → List Char → List Char
  | _, _, out, [] => out
  | i, cout, out, c :: rest =>
    if slen < i || c = nul then out
    else
      match b64decVal c with
      | none => b64Aux blen slen (i + 1) cout out rest
      | some v =>
        let cout2 := cout * 64 % 4294967296 + v
        if i % 4 = 3 then
          if out.length + 3 < blen then
            b64Aux blen slen (i + 1) cout2 (out ++ b64bytes3 cout2) rest
          else out
        else b64Aux blen slen (i + 1) cout2 out rest

/-- `uh_b64decode(buf, blen, src, slen)`: returns the written buffer
contents (decoded bytes plus the appended NUL) and the C return value
(`len` after `buf[len++] = 0`). -/
def uh_b64decode (blen : Nat) (src : List Char) (slen : Nat) : List Char × Nat :=
  let out := b64Aux blen slen 0 0 [] src
  (out ++ [nul], out.length + 1)

theorem b64Aux_length_le (blen slen : Nat) (hb : 1 ≤ blen) (rest : List Char) :
    ∀ i cout out, out.length ≤ blen - 1 →
    (b64Aux blen slen i cout out rest).length ≤ blen - 1 := by
  induction rest with
  | nil => intro i cout out h; exact h
  | cons c rest ih =>
    intro i cout out h
    simp only [b64Aux]
    split
    · exact h
    split
    · exact ih _ _ _ h
    split
    · split
      · refine ih _ _ _ ?_
        simp only [List.length_append, b64bytes3, List.length_cons, List.length_nil]
        omega
      · exact h
    · exact ih _ _ _ h

/-- Number of indices `j ∈ [i, i+n)` with `j % 4 = 3` (the flush points of
the `uh_b64decode` loop). -/
def emCount : Nat → Nat → Nat
  | _, 0 => 0
  | i, n + 1 => (if i % 4 = 3 then 1 else 0) + emCount (i + 1) n

theorem emCount_eq (n : Nat) : ∀ i, emCount i n = (i + n) / 4 - i / 4 := by
  induction n with
  | zero => intro i; simp [emCount]
  | succ n ih =>
    intro i
    have h1 : (if i % 4 = 3 then 1 else 0) = (i + 1) / 4 - i / 4 := by
      split <;> omega
    simp only [emCount, ih (i + 1), h1]
    omega

theorem b64Aux_all_recognised (blen slen : Nat) (rest : List Char) :
    ∀ i cout out,
    (∀ c ∈ rest, (b64decVal c).isSome ∧ c ≠ nul) →
    i + rest.length = slen →
    out.length + 3 * emCount i rest.length + 1 ≤ blen →
    (b64Aux blen slen i cout out rest).length
      = out.length + 3 * emCount i rest.length := by
  induction rest with
  | nil => intro i cout out _ _ _; simp [b64Aux, emCount]
  | cons c rest ih =>
    intro i cout out hrec hslen hroom
    have hc := hrec c (List.mem_cons_self c rest)
    have hi : (decide (slen < i) || decide (c = nul)) = false := by
      simp only [Bool.or_eq_false_iff, decide_eq_false_iff_not]
      constructor
      · simp only [List.length_cons] at hslen; omega
      · exact hc.2
    obtain ⟨v, hv⟩ := Option.isSome_iff_exists.1 hc.1
    have hrec2 : ∀ d ∈ rest, (b64decVal d).isSome ∧ d ≠ nul :=
      fun d hd => hrec d (List.mem_cons_of_mem c hd)
    have hslen2 : (i + 1) + rest.length = slen := by
      simp only [List.length_cons] at hslen; omega
    simp only [b64Aux, hi, Bool.false_eq_true, if_false, hv]
    simp only [List.length_cons, emCount] at hroom ⊢
    by_cases hmod : i % 4 = 3
    · simp only [if_pos hmod] at hroom ⊢
      have hguard : out.length + 3 < blen := by omega
      rw [if_pos hguard]
      rw [ih (i + 1) _ (out ++ b64bytes3 (cout * 64 % 4294967296 + v)) hrec2 hslen2
        (by simp only [List.length_append, b64bytes3, List.length_cons, List.length_nil]
            omega)]
      simp only [List.length_append, b64bytes3, List.length_cons, List.length_nil]
      omega
    · simp only [if_neg hmod] at hroom ⊢
      rw [ih (i + 1) _ out hrec2 hslen2 (by omega)]
      omega

/-- C10 as amended.  (1) For every `blen ≥ 1` the function writes at most
`blen` bytes, NUL-terminates its output, and returns the number of bytes
written (decoded bytes plus one for the NUL).  (2) Output groups are
flushed at input indices `i % 4 == 3` holding a recognised character — so
for an input consisting solely of recognised base64 characters, each
complete group of four contributes three bytes and a trailing partial
group contributes nothing: the return value is `3 * (len / 4) + 1`. -/
theorem C10_b64decode_amended :
    (∀ (blen slen : Nat) (src : List Char), 1 ≤ blen →
      (uh_b64decode blen src slen).1.length ≤ blen ∧
      (uh_b64decode blen src slen).1.getLast? = some nul ∧
      (uh_b64decode blen src slen).2 = (uh_b64decode blen src slen).1.length) ∧
    (∀ (src : List Char) (blen : Nat),
      (∀ c ∈ src, (b64decVal c).isSome ∧ c ≠ nul) →
      3 * (src.length / 4) + 1 ≤ blen →
      (uh_b64decode blen src src.length).2 = 3 * (src.length / 4) + 1) := by
  constructor
  · intro blen slen src hb
    refine ⟨?_, ?_, ?_⟩
    · have := b64Aux_length_le blen slen hb src 0 0 [] (by simp)
      simp only [uh_b64decode, List.length_append, List.length_cons, List.length_nil]
      omega
    · simp [uh_b64decode]
    · simp [uh_b64decode]
  · intro src blen hrec hroom
    have hcnt := emCount_eq src.length 0
    simp only [Nat.zero_add, Nat.zero_div, Nat.sub_zero] at hcnt
    have := b64Aux_all_recognised blen src.length src 0 0 [] hrec (by omega)
      (by simp only [List.length_nil, hcnt]; omega)
    simp only [uh_b64decode, this, List.length_nil, hcnt]
    omega

/-- Witness for C10's amended theorem: `"AAAA"` (one full group) decodes to
three NUL bytes with return value 4; `"AAAAA"` still returns 4 (the fifth
character is a partial group). -/
theorem C10_b64decode_amended_witness :
    (uh_b64decode 8 (String.toList "AAAA") 4).1.length ≤ 8 ∧
    (uh_b64decode 8 (String.toList "AAAAA") 5).2 = 3 * (5 / 4) + 1 :=
  ⟨(C10_b64decode_amended.1 8 4 (String.toList "AAAA") (by decide)).1,
   C10_b64decode_amended.2 (String.toList "AAAAA") 8 (by decide) (by decide)⟩

/-- C10 counterexample to the claim as stated: the input `"AB\nC"` contains
only three recognised base64 characters — no complete group of four — yet
the code flushes at input index 3 (`i % 4 == 3`) and returns 4 (three
decoded bytes plus the NUL), where the claim predicts a return of 1 and no
output bytes. -/
theorem C10_counterexample :
    (uh_b64decode 10 (String.toList "AB\nC") 4).2 = 4 ∧
    (uh_b64decode 10 (String.toList "AB\nC") 4).1
      = [nul, nul, Char.ofNat 66, nul] ∧ (4 : Nat) ≠ 0 + 1 := by
  refine ⟨by decide, by decide, by decide⟩

/-! ## uh_http_sendc (uhttpd-utils.c lines 292-313) -/

/-- One uppercase hex digit, as `%X` prints it. -/
def hexDigitU (m : Nat) : Char :=
  if m ≤ 9 then Char.ofNat (48 + m) else Char.ofNat (55 + m)

/-- Hex digits of `n`, least significant first.  The fuel argument only
bounds the recursion; fuel 16 is enough for any value of C `unsigned int`
(and far beyond), which is the range of `%X`. -/
def hexRevU : Nat → Nat → List Char
  | 0, _ => []
  | f + 1, n => if n = 0 then [] else hexDigitU (n % 16) :: hexRevU f (n / 16)

/-- `snprintf("%X", n)`: uppercase hex without leading zeros, `"0"` for 0. -/
def toHexUpper (n : Nat) : List Char :=
  if n = 0 then ['0'] else (hexRevU 16 n).reverse

/-- The bytes actually sent for the chunk-size line: `snprintf(chunk, 8,
"%X\r\n", len)` truncates to 7 characters plus a NUL, but `uh_tcp_send` is
passed the *untruncated* length `clen` returned by `snprintf`.  For
`clen = 8` exactly this sends the 7 truncated characters plus the NUL
terminator; for `clen > 8` (`len ≥ 2^24`) C reads past the 8-byte buffer
(undefined behaviour) and the model sends the 8 defined bytes. -/
def chunkHead (len : Nat) : List Char :=
  let s := toHexUpper len ++ ['\r', '\n']
  if s.length ≤ 7 then s else (s.take 7 ++ [nul]).take s.length

/-- `uh_http_sendc(cl, data, len)`: the bytes put on the wire.  For a
positive length the size line, the payload and `"\r\n"`; otherwise the
terminator `"0\r\n\r\n"`. -/
def uh_http_sendc (data : List Char) : List Char :=
  if 0 < data.length then chunkHead data.length ++ data ++ ['\r', '\n']
  else ['0', '\r', '\n', '\r', '\n']

/-- Uppercase hex digit test (what the `%X` output consists of). -/
def isHexDigitU (c : Char) : Bool := isDigitB c || (65 ≤ c.toNat && c.toNat ≤ 70)

/-- Value of an uppercase hex digit. -/
def hexValU (c : Char) : Nat := if c.toNat ≤ 57 then c.toNat - 48 else c.toNat - 55

/-- Fold a hex-digit string into its value, most significant digit first. -/
def hfold (a : Nat) (l : List Char) : Nat :=
  l.foldl (fun x c => 16 * x + hexValU c) a

theorem hexRevU_length_le : ∀ (f k n : Nat), n < 16 ^ k → (hexRevU f n).length ≤ k := by
  intro f
  induction f with
  | zero => intro k n _; simp [hexRevU]
  | succ f ih =>
    intro k n hn
    simp only [hexRevU]
    split
    · simp
    · cases k with
      | zero =>
        rename_i hn0
        simp only [pow_zero, Nat.lt_one_iff] at hn
        exact absurd hn hn0
      | succ k =>
        simp only [List.length_cons]
        have : n / 16 < 16 ^ k := by
          rw [Nat.div_lt_iff_lt_mul (by norm_num)]
          calc n < 16 ^ (k + 1) := hn
          _ = 16 ^ k * 16 := by ring
        exact Nat.succ_le_succ (ih k (n / 16) this)

theorem hfold_append (a : Nat) (l r : List Char) :
    hfold a (l ++ r) = hfold (hfold a l) r := by
  simp [hfold, List.foldl_append]

theorem hfold_hexRevU : ∀ (f n a : Nat), n < 16 ^ f →
    hfold a ((hexRevU f n).reverse) = a * 16 ^ (hexRevU f n).length + n := by
  intro f
  induction f with
  | zero =>
    intro n a hn
    simp only [pow_zero, Nat.lt_one_iff] at hn
    subst hn
    simp [hexRevU, hfold]
  | succ f ih =>
    intro n a hn
    simp only [hexRevU]
    split
    · rename_i h0; subst h0; simp [hfold]
    · rename_i h0
      have hdiv : n / 16 < 16 ^ f := by
        rw [Nat.div_lt_iff_lt_mul (by norm_num)]
        calc n < 16 ^ (f + 1) := hn
        _ = 16 ^ f * 16 := by ring
      have hd : hexValU (hexDigitU (n % 16)) = n % 16 := by
        have : n % 16 < 16 := Nat.mod_lt _ (by norm_num)
        interval_cases h : (n % 16) <;> decide
      simp only [List.reverse_cons, hfold_append, ih (n / 16) a hdiv, List.length_cons]
      simp only [hfold, List.foldl_cons, List.foldl_nil, hd]
      have : 16 * (a * 16 ^ (hexRevU f (n / 16)).length + n / 16) + n % 16
          = a * 16 ^ ((hexRevU f (n / 16)).length + 1) + (16 * (n / 16) + n % 16) := by
        ring
      rw [this]
      omega

theorem hfold_toHexUpper (n : Nat) (hn : n < 16 ^ 16) : hfold 0 (toHexUpper n) = n := by
  by_cases h0 : n = 0
  · subst h0; decide
  · simp only [toHexUpper, if_neg h0]
    rw [hfold_hexRevU 16 n 0 hn]
    simp

theorem hexRevU_chars : ∀ (f n : Nat), ∀ c ∈ hexRevU f n, isHexDigitU c = true := by
  intro f
  induction f with
  | zero => intro n c hc; simp [hexRevU] at hc
  | succ f ih =>
    intro n c hc
    simp only [hexRevU] at hc
    split at hc
    · simp at hc
    · simp only [List.mem_cons] at hc
      rcases hc with h | h
      · subst h
        have : n % 16 < 16 := Nat.mod_lt _ (by norm_num)
        interval_cases h : (n % 16) <;> decide
      · exact ih (n / 16) c h

theorem toHexUpper_chars (n : Nat) : ∀ c ∈ toHexUpper n, isHexDigitU c = true := by
  intro c hc
  simp only [toHexUpper] at hc
  split at hc
  · simp only [List.mem_singleton] at hc; subst hc; decide
  · exact hexRevU_chars 16 n c (List.mem_reverse.1 hc)

theorem hexRevU_getLast_ne_zero : ∀ (f n : Nat), 0 < n → n < 16 ^ f →
    ∀ d, (hexRevU f n).getLast? = some d → d ≠ '0' := by
  intro f
  induction f with
  | zero =>
    intro n hn hf
    simp only [pow_zero, Nat.lt_one_iff] at hf
    omega
  | succ f ih =>
    intro n hn hf d hd
    simp only [hexRevU, if_neg (Nat.pos_iff_ne_zero.1 hn)] at hd
    by_cases hq : n / 16 = 0
    · have hrec : hexRevU f (n / 16) = [] := by
        cases f <;> simp [hexRevU, hq]
      rw [hrec, List.getLast?_singleton] at hd
      have hlt : n % 16 < 16 := Nat.mod_lt _ (by norm_num)
      have hne : n % 16 ≠ 0 := by omega
      cases hd
      interval_cases h : (n % 16) <;> simp_all <;> decide
    · have hne2 : hexRevU f (n / 16) ≠ [] := by
        cases f with
        | zero =>
          exfalso
          have : n < 16 := by simpa using hf
          omega
        | succ f => simp [hexRevU, hq]
      obtain ⟨b, t, hbt⟩ : ∃ b t, hexRevU f (n / 16) = b :: t := by
        cases h : hexRevU f (n / 16) with
        | nil => exact absurd h hne2
        | cons b t => exact ⟨b, t, rfl⟩
      rw [hbt, List.getLast?_cons_cons] at hd
      have hdiv : n / 16 < 16 ^ f := by
        rw [Nat.div_lt_iff_lt_mul (by norm_num)]
        calc n < 16 ^ (f + 1) := hf
        _ = 16 ^ f * 16 := by ring
      exact ih (n / 16) (Nat.pos_iff_ne_zero.2 hq) hdiv d (by rw [hbt]; exact hd)

theorem toHexUpper_no_leading_zero (n : Nat) (hn : 0 < n) (hf : n < 16 ^ 16) :
    (toHexUpper n).head? ≠ some '0' := by
  simp only [toHexUpper, if_neg (Nat.pos_iff_ne_zero.1 hn)]
  rw [List.head?_reverse]
  intro h
  exact hexRevU_getLast_ne_zero 16 n hn hf '0' h rfl

theorem takeWhile_all_append (p : Char → Bool) (l r : List Char)
    (h : ∀ c ∈ l, p c = true) :
    (l ++ r).takeWhile p = l ++ r.takeWhile p := by
  induction l with
  | nil => simp
  | cons c l ih =>
    have hc := h c (List.mem_cons_self c l)
    simp only [List.cons_append, List.takeWhile_cons, hc, if_pos]
    rw [ih (fun d hd => h d (List.mem_cons_of_mem c hd))]

/-- Modelled from the spec: a chunked-transfer decoder (RFC 2616 §3.6.1
restricted to what the encoder produces): a hex size line, CRLF, that many
payload bytes, CRLF, repeated; the terminator `0 CRLF CRLF` ends the
stream. -/
def parseChunkFrame (input : List Char) : Option (Nat × List Char) :=
  let digits := input.takeWhile isHexDigitU
  if digits = [] then none
  else
    match input.drop digits.length with
    | '\r' :: '\n' :: r2 => some (hfold 0 digits, r2)
    | _ => none

/-- Modelled from the spec: decode the chunk stream; returns the list of
chunk payloads, `none` on any framing error. -/
def decodeChunks : Nat → List Char → Option (List (List Char))
  | 0, _ => none
  | fuel + 1, input =>
    match parseChunkFrame input with
    | none => none
    | some (n, r2) =>
      if n = 0 then (if r2 = ['\r', '\n'] then some [] else none)
      else if r2.length < n then none
      else
        match r2.drop n with
        | '\r' :: '\n' :: r4 =>
          (decodeChunks fuel r4).map (fun ls => r2.take n :: ls)
        | _ => none

theorem sendc_frame (p : List Char) (hne : p ≠ []) (hlen : p.length < 1048576) :
    uh_http_sendc p = toHexUpper p.length ++ ['\r', '\n'] ++ p ++ ['\r', '\n'] := by
  have hpos : 0 < p.length := List.length_pos.2 hne
  have hhex : (toHexUpper p.length).length ≤ 5 := by
    simp only [toHexUpper, if_neg (Nat.pos_iff_ne_zero.1 hpos)]
    rw [List.length_reverse]
    exact hexRevU_length_le 16 5 p.length (by norm_num at hlen ⊢; omega)
  have hs : (toHexUpper p.length ++ ['\r', '\n']).length ≤ 7 := by
    simp only [List.length_append, List.length_cons, List.length_nil]
    omega
  simp only [uh_http_sendc, if_pos hpos, chunkHead, if_pos hs, List.append_assoc]

theorem parseChunkFrame_frame (n : Nat) (hn : n < 16 ^ 16) (x : List Char) :
    parseChunkFrame (toHexUpper n ++ '\r' :: '\n' :: x) = some (n, x) := by
  have hne : toHexUpper n ≠ [] := by
    simp only [toHexUpper]
    split
    · simp
    · simp only [ne_eq, List.reverse_eq_nil_iff]
      rename_i h0
      cases hf : hexRevU 16 n with
      | nil => simp [hexRevU, h0] at hf
      | cons a l => simp
  have htw : (toHexUpper n ++ '\r' :: '\n' :: x).takeWhile isHexDigitU = toHexUpper n := by
    rw [takeWhile_all_append isHexDigitU _ _ (toHexUpper_chars n)]
    simp [List.takeWhile_cons, isHexDigitU, isDigitB]
  simp only [parseChunkFrame, htw, if_neg hne]
  have hdrop : (toHexUpper n ++ '\r' :: '\n' :: x).drop (toHexUpper n).length
      = '\r' :: '\n' :: x := List.drop_left _ _
  rw [hdrop, hfold_toHexUpper n hn]
  rfl

theorem decode_sendc_step (p t : List Char) (f : Nat) (hne : p ≠ [])
    (hlen : p.length < 1048576) :
    decodeChunks (f + 1) (uh_http_sendc p ++ t)
      = (decodeChunks f t).map (fun ls => p :: ls) := by
  have hn16 : p.length < 16 ^ 16 := by norm_num at hlen ⊢; omega
  have hframe : uh_http_sendc p ++ t
      = toHexUpper p.length ++ '\r' :: '\n' :: (p ++ '\r' :: '\n' :: t) := by
    rw [sendc_frame p hne hlen]
    simp
  rw [hframe]
  simp only [decodeChunks, parseChunkFrame_frame p.length hn16 (p ++ '\r' :: '\n' :: t)]
  have hne0 : ¬ p.length = 0 := by
    simpa [List.length_eq_zero] using hne
  have htake : (p ++ '\r' :: '\n' :: t).take p.length = p := List.take_left _ _
  have hdrop : (p ++ '\r' :: '\n' :: t).drop p.length = '\r' :: '\n' :: t :=
    List.drop_left _ _
  have hlen2 : ¬ (p ++ '\r' :: '\n' :: t).length < p.length := by
    simp only [List.length_append]
    omega
  rw [if_neg hne0, if_neg hlen2, hdrop]
  simp only [htake]

/-- C6 as amended.  (1) For a non-empty payload *of length below 2^20* (so
that the hex size plus CRLF fit the 8-byte `chunk` buffer of
`uh_http_sendc`) the emission is the uppercase-hex length without leading
zeros, CRLF, the payload, CRLF.  (2) The empty payload emits exactly
`"0\r\n\r\n"`.  (3) Concatenating such frames followed by the terminator
decodes back to the original payload sequence. -/
theorem C6_chunked_framing_amended :
    (∀ p : List Char, p ≠ [] → p.length < 1048576 →
      uh_http_sendc p = toHexUpper p.length ++ ['\r', '\n'] ++ p ++ ['\r', '\n'] ∧
      (∀ c ∈ toHexUpper p.length, isHexDigitU c = true) ∧
      (toHexUpper p.length).head? ≠ some '0') ∧
    uh_http_sendc [] = ['0', '\r', '\n', '\r', '\n'] ∧
    (∀ ps : List (List Char), (∀ p ∈ ps, p ≠ [] ∧ p.length < 1048576) →
      decodeChunks (ps.length + 1) ((ps.map uh_http_sendc).join ++ uh_http_sendc [])
        = some ps) := by
  refine ⟨?_, by decide, ?_⟩
  · intro p hne hlen
    refine ⟨sendc_frame p hne hlen, toHexUpper_chars p.length, ?_⟩
    exact toHexUpper_no_leading_zero p.length (List.length_pos.2 hne)
      (by norm_num at hlen ⊢; omega)
  · intro ps
    induction ps with
    | nil => intro _; decide
    | cons p ps ih =>
      intro hps
      have hp := hps p (List.mem_cons_self p ps)
      simp only [List.map_cons, List.join_cons, List.append_assoc, List.length_cons]
      rw [decode_sendc_step p _ (ps.length + 1) hp.1 hp.2]
      rw [ih (fun q hq => hps q (List.mem_cons_of_mem p hq))]
      rfl

/-- Witness for C6's amended theorem at concrete inputs: two frames
`"ab"`, `"c"` followed by the terminator decode to the original stream. -/
theorem C6_chunked_framing_amended_witness :
    decodeChunks 3 ((([['a', 'b'], ['c']] : List (List Char)).map uh_http_sendc).join
        ++ uh_http_sendc []) = some [['a', 'b'], ['c']] :=
  C6_chunked_framing_amended.2.2 [['a', 'b'], ['c']] (by decide)

/-- C6 counterexample to the claim as stated: for the payload of 2^20 `'a'`
bytes the hex size line `"100000\r\n"` needs 8 characters plus a NUL, so
`snprintf` truncates inside the 8-byte `chunk` buffer and the wire carries
`"100000\r"` followed by a NUL byte instead of CRLF — not the claimed
framing. -/
theorem C6_counterexample :
    (uh_http_sendc (List.replicate 1048576 'a')).take 8
        = String.toList "100000\r" ++ [nul] ∧
    (toHexUpper 1048576 ++ ['\r', '\n'] ++ List.replicate 1048576 'a'
        ++ ['\r', '\n']).take 8 = String.toList "100000\r\n" ∧
    uh_http_sendc (List.replicate 1048576 'a')
      ≠ toHexUpper 1048576 ++ ['\r', '\n'] ++ List.replicate 1048576 'a'
        ++ ['\r', '\n'] := by
  have hhead : chunkHead 1048576 = String.toList "100000\r" ++ [nul] := by decide
  have e1 : uh_http_sendc (List.replicate 1048576 'a')
      = (String.toList "100000\r" ++ [nul])
        ++ (List.replicate 1048576 'a' ++ ['\r', '\n']) := by
    simp only [uh_http_sendc, List.length_replicate]
    rw [if_pos (by norm_num), hhead, List.append_assoc]
  have e2 : toHexUpper 1048576 ++ ['\r', '\n'] ++ List.replicate 1048576 'a' ++ ['\r', '\n']
      = String.toList "100000\r\n" ++ (List.replicate 1048576 'a' ++ ['\r', '\n']) := by
    rw [show toHexUpper 1048576 ++ ['\r', '\n'] = String.toList "100000\r\n" from by decide,
      List.append_assoc]
  have t1 : (uh_http_sendc (List.replicate 1048576 'a')).take 8
      = String.toList "100000\r" ++ [nul] := by
    rw [e1, show (8 : Nat) = (String.toList "100000\r" ++ [nul]).length from by decide]
    exact List.take_left _ _
  have t2 : (toHexUpper 1048576 ++ ['\r', '\n'] ++ List.replicate 1048576 'a'
      ++ ['\r', '\n']).take 8 = String.toList "100000\r\n" := by
    rw [e2, show (8 : Nat) = (String.toList "100000\r\n").length from by decide]
    exact List.take_left _ _
  refine ⟨t1, t2, ?_⟩
  intro h
  have := congrArg (List.take 8) h
  rw [t1, t2] at this
  exact absurd this (by decide)

/-! ## uh_file_mime_lookup (uhttpd-file.c lines 29-50).  The table
`uh_mime_types[]` comes from uhttpd-mimetypes.h, which is not part of the
core sources; it is a parameter here. -/

theorem char_toNat_inj {c d : Char} (h : c.toNat = d.toNat) : c = d :=
  Char.ext (UInt32.ext h)

/-- Byte value after C `tolower` (ASCII). -/
def tolowerN (c : Char) : Nat := if isUpperB c then c.toNat + 32 else c.toNat

/-- `strcasecmp(a, b) == 0`. -/
def strEqCI (a b : List Char) : Bool := a.map tolowerN == b.map tolowerN

/-- The inner loop of `uh_file_mime_lookup` for one table entry: scan `e`
from the end of the path towards its start; a hit is a position holding
`'.'` or `'/'` whose remaining suffix equals the extension
case-insensitively.  (The C loop visits positions right to left; as only
the existence of a hit decides the result, the recursion here visits the
same positions front to back.) -/
def mimeEntryMatches (path extn : List Char) : Bool :=
  match path with
  | [] => false
  | c :: rest => ((c = '.' || c = '/') && strEqCI rest extn) || mimeEntryMatches rest extn

/-- `uh_file_mime_lookup(path)`: first table entry (in table order) with a
hit anywhere in the path; fallback `application/octet-stream`. -/
def uh_file_mime_lookup (table : List (List Char × List Char)) (path : List Char) :
    List Char :=
  match table.find? (fun m => mimeEntryMatches path m.1) with
  | some m => m.2
  | none => String.toList "application/octet-stream"

/-- Modelled from the spec: the suffix of the path after its *last* `'.'`
or `'/'` (the anchor reached first when scanning right-to-left), if any. -/
def extSuffix (path : List Char) : Option (List Char) :=
  match path with
  | [] => none
  | c :: rest =>
    match extSuffix rest with
    | some s => some s
    | none => if c = '.' || c = '/' then some rest else none

/-- Modelled from the spec: "MIME lookup by extension, case-insensitive,
first match scanning the path right-to-left stopping at the last `.` or
`/`; fallback `application/octet-stream`". -/
def specMimeLookup (table : List (List Char × List Char)) (path : List Char) :
    List Char :=
  match extSuffix path with
  | none => String.toList "application/octet-stream"
  | some s =>
    match table.find? (fun m => strEqCI s m.1) with
    | some m => m.2
    | none => String.toList "application/octet-stream"

theorem extSuffix_has_anchor (path : List Char) :
    ∀ s, extSuffix path = some s → ∃ c ∈ path, (c = '.' ∨ c = '/') := by
  induction path with
  | nil => intro s h; simp [extSuffix] at h
  | cons c rest ih =>
    intro s h
    cases he : extSuffix rest with
    | some t =>
      obtain ⟨d, hd, hord⟩ := ih t he
      exact ⟨d, List.mem_cons_of_mem c hd, hord⟩
    | none =>
      simp only [extSuffix, he] at h
      split at h
      · rename_i hc
        simp only [Bool.or_eq_true, decide_eq_true_eq] at hc
        exact ⟨c, List.mem_cons_self c rest, hc⟩
      · cases h

theorem tolowerN_anchor {d : Char} (h : tolowerN d = 46 ∨ tolowerN d = 47) :
    d = '.' ∨ d = '/' := by
  simp only [tolowerN] at h
  split at h
  · rename_i hu
    simp only [isUpperB, Bool.and_eq_true, decide_eq_true_eq] at hu
    omega
  · rcases h with h | h
    · exact Or.inl (char_toNat_inj h)
    · exact Or.inr (char_toNat_inj h)

/-- If a case-insensitive match of a suffix containing an anchor character
against an extension succeeds, the extension itself contains `'.'` or
`'/'`. -/
theorem strEqCI_anchor_mem {a extn : List Char} (h : strEqCI a extn = true)
    {c : Char} (hc : c ∈ a) (hanc : c = '.' ∨ c = '/') :
    '.' ∈ extn ∨ '/' ∈ extn := by
  simp only [strEqCI, beq_iff_eq] at h
  have hmem : tolowerN c ∈ extn.map tolowerN := by
    rw [← h]
    exact List.mem_map_of_mem tolowerN hc
  obtain ⟨d, hd, hdc⟩ := List.mem_map.1 hmem
  have hval : tolowerN c = 46 ∨ tolowerN c = 47 := by
    rcases hanc with h1 | h1 <;> subst h1 <;> simp [tolowerN, isUpperB]
  have := tolowerN_anchor (by rw [hdc]; exact hval)
  rcases this with h1 | h1
  · exact Or.inl (h1 ▸ hd)
  · exact Or.inr (h1 ▸ hd)

/-- Under a table extension free of `'.'` and `'/'`, the per-entry scan of
`uh_file_mime_lookup` is exactly a case-insensitive comparison against the
suffix after the last anchor. -/
theorem find?_congrP {α : Type} (l : List α) (p q : α → Bool)
    (h : ∀ x ∈ l, p x = q x) : l.find? p = l.find? q := by
  induction l with
  | nil => rfl
  | cons a l ih =>
    have ha := h a (List.mem_cons_self a l)
    simp only [List.find?_cons, ha]
    split
    · rfl
    · exact ih (fun x hx => h x (List.mem_cons_of_mem a hx))

theorem mimeEntryMatches_eq_extSuffix (extn : List Char)
    (hwf : '.' ∉ extn ∧ '/' ∉ extn) (path : List Char) :
    mimeEntryMatches path extn =
      (match extSuffix path with
       | some s => strEqCI s extn
       | none => false) := by
  induction path with
  | nil => simp [mimeEntryMatches, extSuffix]
  | cons c rest ih =>
    simp only [mimeEntryMatches, extSuffix]
    cases he : extSuffix rest with
    | some t =>
      rw [he] at ih
      rw [ih]
      have hfirst : ((c = '.' || c = '/') && strEqCI rest extn) = false := by
        by_contra hne
        have h1 : ((c = '.' || c = '/') && strEqCI rest extn) = true := by
          revert hne
          cases ((c = '.' || c = '/') && strEqCI rest extn) <;> simp
        simp only [Bool.and_eq_true] at h1
        obtain ⟨d, hd, hanc⟩ := extSuffix_has_anchor rest t he
        rcases strEqCI_anchor_mem h1.2 hd hanc with hmem | hmem
        · exact hwf.1 hmem
        · exact hwf.2 hmem
      rw [hfirst]
      simp
    | none =>
      rw [he] at ih
      rw [ih]
      by_cases hc : (c = '.' || c = '/') = true
      · rw [hc]
        simp
      · have hc2 : (c = '.' || c = '/') = false := by
          revert hc; cases (c = '.' || c = '/') <;> simp
        rw [hc2]
        simp

/-- C9: the MIME type chosen by `uh_file_mime_lookup` is the result of a
case-insensitive lookup of the suffix after the last `'.'` or `'/'` of the
path, first matching table entry winning, with fallback
`application/octet-stream` — for every table whose extensions contain
neither `'.'` nor `'/'` (as conventional extension tables do). -/
theorem C9_mime_lookup (table : List (List Char × List Char))
    (hwf : ∀ m ∈ table, '.' ∉ m.1 ∧ '/' ∉ m.1) (path : List Char) :
    uh_file_mime_lookup table path = specMimeLookup table path := by
  simp only [uh_file_mime_lookup, specMimeLookup]
  cases he : extSuffix path with
  | none =>
    have : table.find? (fun m => mimeEntryMatches path m.1) = none := by
      rw [List.find?_eq_none]
      intro m hm
      rw [mimeEntryMatches_eq_extSuffix m.1 (hwf m hm) path, he]
      simp
    rw [this]
  | some s =>
    have : table.find? (fun m => mimeEntryMatches path m.1)
        = table.find? (fun m => strEqCI s m.1) := by
      apply find?_congrP
      intro m hm
      rw [mimeEntryMatches_eq_extSuffix m.1 (hwf m hm) path, he]
    rw [this]

/-- Witness for C9 at a concrete table and path: `"/x/a.TXT"` resolves to
`text/plain` through the `("txt", "text/plain")` entry. -/
theorem C9_mime_lookup_witness :
    uh_file_mime_lookup
        [(String.toList "html", String.toList "text/html"),
         (String.toList "txt", String.toList "text/plain")]
        (String.toList "/x/a.TXT")
      = specMimeLookup
        [(String.toList "html", String.toList "text/html"),
         (String.toList "txt", String.toList "text/plain")]
        (String.toList "/x/a.TXT") ∧
    uh_file_mime_lookup
        [(String.toList "html", String.toList "text/html"),
         (String.toList "txt", String.toList "text/plain")]
        (String.toList "/x/a.TXT") = String.toList "text/plain" :=
  ⟨C9_mime_lookup _ (by decide) _, by decide⟩

/-! ## HTTP emission events.  Every `uh_tcp_send`/`uh_http_sendf` call of
the handlers is modelled as a structured event carrying exactly what the C
format string emits (status line, one header line, the blank line closing
the header section, or body bytes). -/

inductive Ver
  | V09
  | V10
  | V11
deriving DecidableEq

/-- `http_versions[]` (uhttpd.c, outside the core): the strings used in
status lines, per the spec wire examples. -/
def verStr : Ver → List Char
  | Ver.V09 => String.toList "HTTP/0.9"
  | Ver.V10 => String.toList "HTTP/1.0"
  | Ver.V11 => String.toList "HTTP/1.1"

/-- `req->version > UH_HTTP_VER_1_0` (enum order 0.9 < 1.0 < 1.1). -/
def verAbove10 : Ver → Bool
  | Ver.V11 => true
  | _ => false

inductive HttpEv
  | statusLine (v : List Char) (code : Nat) (reason : List Char)
  | header (hname value : List Char)
  | blank
  | body (bytes : List Char)
deriving DecidableEq

/-- Status codes among a list of events. -/
def statusCodes (evs : List HttpEv) : List Nat :=
  evs.filterMap (fun e => match e with
    | HttpEv.statusLine _ code _ => some code
    | _ => none)

/-- Header names among a list of events. -/
def headerNames (evs : List HttpEv) : List (List Char) :=
  evs.filterMap (fun e => match e with
    | HttpEv.header n _ => some n
    | _ => none)

/-! ## uh_auth_add / uh_auth_check (uhttpd-utils.c lines 748-903) -/

structure AuthRealm where
  path : List Char
  user : List Char
  pass : List Char
deriving DecidableEq

/-- The verifier materialisation of `uh_auth_add`: a password of the form
`$p$name` (checked as `strlen(pass) > 3 && !strncmp(pass, "$p$", 3)`) is
replaced by the stored hash of the system account `name`, resolved through
the shadow/passwd databases — external state, an oracle here, returning
`[]` when no entry materialises (NULL, locked `!` entry, or empty).  An
empty verifier makes `uh_auth_add` reject the realm (return NULL without
linking it). -/
def mkRealm (pwResolve : List Char → List Char)
    (a : List Char × List Char × List Char) : Option AuthRealm :=
  let pass2 := if 3 < a.2.2.length && a.2.2.take 3 == String.toList "$p$"
    then pwResolve (a.2.2.drop 3) else a.2.2
  if pass2 = [] then none else some ⟨a.1, a.2.1, pass2⟩

/-- `uh_auth_add(path, user, pass)`: the new realm is pushed at the *head*
of the global `uh_realms` list. -/
def uh_auth_add (pwResolve : List Char → List Char) (realms : List AuthRealm)
    (path user pass : List Char) : List AuthRealm :=
  match mkRealm pwResolve (path, user, pass) with
  | some r => r :: realms
  | none => realms

/-- The realm list produced by a sequence of `uh_auth_add` calls in
configuration order. -/
def buildRealms (pwResolve : List Char → List Char)
    (adds : List (List Char × List Char × List Char)) : List AuthRealm :=
  adds.foldl (fun rs a => uh_auth_add pwResolve rs a.1 a.2.1 a.2.2) []

/-- One realm-coverage test of `uh_auth_check`:
`(plen >= rlen) && !strncasecmp(pi->name, realm->path, rlen)`. -/
def realmCovers (pname : List Char) (r : AuthRealm) : Bool :=
  r.path.length ≤ pname.length && strEqCI (pname.take r.path.length) r.path

/-- The first scan of `uh_auth_check`: walk `uh_realms` in list order and
adopt the first realm covering the requested name (`break`). -/
def findRealm (realms : List AuthRealm) (pname : List Char) : Option AuthRealm :=
  realms.find? (realmCovers pname)

/-- C string view of a buffer: bytes up to the first NUL. -/
def cstr (l : List Char) : List Char := l.takeWhile (fun c => c ≠ nul)

/-- The header scan of `uh_auth_check`: the first header whose name is
`Authorization` (case-insensitive) *and* whose value is longer than 6 bytes
and starts with `Basic ` (case-insensitive); yields the base64 part. -/
def findBasicAuth (headers : List (List Char × List Char)) : Option (List Char) :=
  (headers.find? (fun h => strEqCI h.1 (String.toList "Authorization")
      && decide (6 < h.2.length)
      && strEqCI (h.2.take 6) (String.toList "Basic "))).map (fun h => h.2.drop 6)

/-- The fixed 401 response of `uh_auth_check` (one `uh_http_sendf` with
status, `WWW-Authenticate`, `Content-Type`, `Content-Length`, blank line
and the 23-byte body). -/
def deny401 (v : Ver) (confRealm : List Char) : List HttpEv :=
  [HttpEv.statusLine (verStr v) 401 (String.toList "Authorization Required"),
   HttpEv.header (String.toList "WWW-Authenticate")
     (String.toList "Basic realm=\"" ++ confRealm ++ ['\"']),
   HttpEv.header (String.toList "Content-Type") (String.toList "text/plain"),
   HttpEv.header (String.toList "Content-Length") (String.toList "23"),
   HttpEv.blank,
   HttpEv.body (String.toList "Authorization Required\n")]

structure AuthResult where
  granted : Bool
  adopted : Option AuthRealm
  events : List HttpEv
deriving DecidableEq

/-- `uh_auth_check(cl, req, pi)`.  `BL` is `UH_LIMIT_MSGHEAD` (the size of
the stack buffer, from uhttpd.h), `cryptFn` the external `crypt`.  Returns
the C result (1 = pass), the realm adopted by the first scan (`req->realm`)
and the emitted response events. -/
def uh_auth_check (BL : Nat) (cryptFn : List Char → List Char → List Char)
    (realms : List AuthRealm) (confRealm : List Char) (v : Ver)
    (headers : List (List Char × List Char)) (pname : List Char) : AuthResult :=
  match findRealm realms pname with
  | none => ⟨true, none, []⟩
  | some protRealm =>
    let creds : Option (List Char × List Char) :=
      match findBasicAuth headers with
      | none => none
      | some val =>
        let d := cstr (uh_b64decode (BL - 1) val val.length).1
        if d.any (fun c => c = ':') then
          some (d.takeWhile (fun c => c ≠ ':'), (d.dropWhile (fun c => c ≠ ':')).drop 1)
        else none
    let ok : Bool :=
      match creds with
      | none => false
      | some (user, pass) =>
        match realms.find? (fun r => realmCovers pname r && r.user == user) with
        | none => false
        | some r => pass == r.pass || cryptFn pass r.pass == r.pass
    if ok then ⟨true, some protRealm, []⟩
    else ⟨false, some protRealm, deny401 v confRealm⟩

theorem buildRealms_foldl (pwResolve : List Char → List Char)
    (adds : List (List Char × List Char × List Char)) :
    ∀ init, adds.foldl (fun rs a => uh_auth_add pwResolve rs a.1 a.2.1 a.2.2) init
      = (adds.filterMap (mkRealm pwResolve)).reverse ++ init := by
  induction adds with
  | nil => intro init; simp
  | cons a adds ih =>
    intro init
    simp only [List.foldl_cons, List.filterMap_cons]
    cases hm : mkRealm pwResolve a with
    | none =>
      rw [show uh_auth_add pwResolve init a.1 a.2.1 a.2.2 = init from by
        simp only [uh_auth_add]
        rw [show (a.1, a.2.1, a.2.2) = a from rfl, hm]]
      exact ih init
    | some r =>
      rw [show uh_auth_add pwResolve init a.1 a.2.1 a.2.2 = r :: init from by
        simp only [uh_auth_add]
        rw [show (a.1, a.2.1, a.2.2) = a from rfl, hm]]
      rw [ih (r :: init)]
      simp

/-- C3 as amended.  (1) The realm adopted for a request is the *first*
realm in the scan order of `uh_realms` whose path is a case-insensitive
prefix of the name — and since `uh_auth_add` prepends, scan order is
*reverse* configuration order; path length plays no role.  (2) When no
realm covers the name, the check passes with no challenge emitted. -/
theorem C3_realm_matching_amended :
    (∀ (pwResolve : List Char → List Char)
       (adds : List (List Char × List Char × List Char)) (pname : List Char),
      findRealm (buildRealms pwResolve adds) pname
        = ((adds.filterMap (mkRealm pwResolve)).reverse).find? (realmCovers pname)) ∧
    (∀ BL cryptFn realms confRealm v headers pname,
      findRealm realms pname = none →
      uh_auth_check BL cryptFn realms confRealm v headers pname
        = ⟨true, none, []⟩) := by
  constructor
  · intro pwResolve adds pname
    simp only [findRealm, buildRealms, buildRealms_foldl pwResolve adds []]
    simp
  · intro BL cryptFn realms confRealm v headers pname hnone
    simp only [uh_auth_check, hnone]

/-- Witness for C3's amended theorem at a concrete configuration: realms
`/a/b` then `/a` are scanned in reverse configuration order, and a name
covered by no realm passes without challenge. -/
theorem C3_realm_matching_amended_witness :
    findRealm (buildRealms (fun _ => [])
        [(String.toList "/a/b", String.toList "u1", String.toList "p1"),
         (String.toList "/a", String.toList "u2", String.toList "p2")])
        (String.toList "/a/b/x")
      = (([(String.toList "/a/b", String.toList "u1", String.toList "p1"),
           (String.toList "/a", String.toList "u2", String.toList "p2")].filterMap
            (mkRealm (fun _ => []))).reverse).find?
          (realmCovers (String.toList "/a/b/x")) ∧
    uh_auth_check 4096 (fun _ _ => []) (buildRealms (fun _ => [])
        [(String.toList "/a/b", String.toList "u1", String.toList "p1")])
        (String.toList "rlm") Ver.V11 [] (String.toList "/zz")
      = ⟨true, none, []⟩ :=
  ⟨C3_realm_matching_amended.1 (fun _ => []) _ _,
   C3_realm_matching_amended.2 4096 (fun _ _ => []) _ _ Ver.V11 [] _ (by decide)⟩

/-- C3 counterexample to the claim as stated: realms are configured in
order `/a/b` then `/a`; for the name `/a/b/x` the longest covering prefix
is `/a/b`, but `uh_auth_check` adopts the realm `/a` — the head of the
prepend-built list, i.e. the *most recently added* covering realm,
regardless of length. -/
theorem C3_counterexample :
    (uh_auth_check 4096 (fun _ _ => []) (buildRealms (fun _ => [])
        [(String.toList "/a/b", String.toList "u1", String.toList "p1"),
         (String.toList "/a", String.toList "u2", String.toList "p2")])
        (String.toList "rlm") Ver.V11 [] (String.toList "/a/b/x")).adopted
      = some ⟨String.toList "/a", String.toList "u2", String.toList "p2"⟩ ∧
    realmCovers (String.toList "/a/b/x")
      ⟨String.toList "/a/b", String.toList "u1", String.toList "p1"⟩ = true ∧
    (String.toList "/a").length < (String.toList "/a/b").length := by
  refine ⟨by decide, by decide, by decide⟩

/-! ## uhttpd-file.c: entity tags, conditional engine, uh_file_request -/

structure FileStat where
  st_mode : Nat
  st_ino : Nat
  st_size : Nat
  st_mtime : Nat
deriving DecidableEq

/-- `S_IFREG` -/
def S_IFREG : Nat := 32768
/-- `S_IFDIR` -/
def S_IFDIR : Nat := 16384
/-- `S_IROTH` -/
def S_IROTH : Nat := 4
/-- `S_IXOTH` -/
def S_IXOTH : Nat := 1

inductive Method
  | GET
  | HEAD
  | POST
  | OTHER
deriving DecidableEq

/-- One lowercase hex digit, as `%x` prints it. -/
def hexDigitL (m : Nat) : Char :=
  if m ≤ 9 then Char.ofNat (48 + m) else Char.ofNat (87 + m)

/-- Lowercase hex digits of `n`, least significant first (fuel-bounded as
in `hexRevU`; fuel 16 covers the `unsigned int` range of `%x`). -/
def hexRevL : Nat → Nat → List Char
  | 0, _ => []
  | f + 1, n => if n = 0 then [] else hexDigitL (n % 16) :: hexRevL f (n / 16)

/-- `snprintf("%x", n)`. -/
def toHexLower (n : Nat) : List Char :=
  if n = 0 then ['0'] else (hexRevL 16 n).reverse

/-- `uh_file_mktag`: `"<hex-inode>-<hex-size>-<hex-mtime>"` in double
quotes, each field cast to `unsigned int` (i.e. reduced mod 2^32). -/
def uh_file_mktag (s : FileStat) : List Char :=
  ['\"'] ++ toHexLower (s.st_ino % 4294967296) ++ ['-']
    ++ toHexLower (s.st_size % 4294967296) ++ ['-']
    ++ toHexLower (s.st_mtime % 4294967296) ++ ['\"']

/-- `uh_file_header_lookup`: first header with a case-insensitive name
match. -/
def uh_file_header_lookup (headers : List (List Char × List Char))
    (hname : List Char) : Option (List Char) :=
  (headers.find? (fun h => strEqCI h.1 hname)).map (fun h => h.2)

/-- `uh_file_response_ok_hdrs(cl, s)`: `Connection: close`, then — only
when a stat is passed — `ETag` and `Last-Modified`, then `Date`.
`unix2date` stands for `gmtime`/`strftime`, `now` for `time(NULL)`. -/
def uh_file_response_ok_hdrs (s : Option FileStat) (unix2date : Nat → List Char)
    (now : Nat) : List HttpEv :=
  [HttpEv.header (String.toList "Connection") (String.toList "close")] ++
  (match s with
   | some st =>
     [HttpEv.header (String.toList "ETag") (uh_file_mktag st),
      HttpEv.header (String.toList "Last-Modified") (unix2date st.st_mtime)]
   | none => []) ++
  [HttpEv.header (String.toList "Date") (unix2date now)]

/-- `uh_file_response_200`. -/
def uh_file_response_200 (v : Ver) (s : Option FileStat)
    (unix2date : Nat → List Char) (now : Nat) : List HttpEv :=
  HttpEv.statusLine (verStr v) 200 (String.toList "OK")
    :: uh_file_response_ok_hdrs s unix2date now

/-- `uh_file_response_304`. -/
def uh_file_response_304 (v : Ver) (s : FileStat)
    (unix2date : Nat → List Char) (now : Nat) : List HttpEv :=
  HttpEv.statusLine (verStr v) 304 (String.toList "Not Modified")
    :: uh_file_response_ok_hdrs (some s) unix2date now

/-- `uh_file_response_412`: status line and `Connection: close` only. -/
def uh_file_response_412 (v : Ver) : List HttpEv :=
  [HttpEv.statusLine (verStr v) 412 (String.toList "Precondition Failed"),
   HttpEv.header (String.toList "Connection") (String.toList "close")]

/-- The token scan shared by `uh_file_if_match` and
`uh_file_if_none_match`, byte for byte: the header value is mutated in
place (separators `' '`/`','` overwritten with NUL, which shortens
`strlen(hdr)` and therefore the loop bound), `p` marks the current token
start, and at every non-separator position the C string at `p` is compared
against `"*"` and the tag.  After a separator at `i` the index jumps to
`i + 2` (`hdr[i++] = 0` plus the `for` increment).  The fuel only bounds
the recursion; `i` grows every step, so `hdr.length + 1` steps suffice. -/
def tokenMatchLoop (tag : List Char) : Nat → List Char → Nat → Nat → Bool
  | 0, _, _, _ => false
  | fuel + 1, arr, i, p =>
    if i < (cstr arr).length then
      let c := arr.getD i nul
      if c = ' ' || c = ',' then
        tokenMatchLoop tag fuel (arr.set i nul) (i + 2) (i + 1)
      else if cstr (arr.drop p) = ['*'] || cstr (arr.drop p) = tag then true
      else tokenMatchLoop tag fuel arr (i + 1) p
    else false

/-- Whether the scan of `uh_file_if_match`/`uh_file_if_none_match` finds a
matching token in the header value. -/
def tokenListMatches (tag hdr : List Char) : Bool :=
  tokenMatchLoop tag (hdr.length + 1) hdr 0 0

/-- `uh_file_if_modified_since`: present and `date2unix(hdr) >= mtime` ⇒
fail with a 304. -/
def uh_file_if_modified_since (headers : List (List Char × List Char))
    (s : FileStat) (date2unix : List Char → Nat) (v : Ver)
    (unix2date : Nat → List Char) (now : Nat) : Bool × List HttpEv :=
  match uh_file_header_lookup headers (String.toList "If-Modified-Since") with
  | none => (true, [])
  | some h =>
    if s.st_mtime ≤ date2unix h then (false, uh_file_response_304 v s unix2date now)
    else (true, [])

/-- `uh_file_if_match`: a token equal to the tag or `*` passes; no match ⇒
412. -/
def uh_file_if_match (headers : List (List Char × List Char)) (s : FileStat)
    (v : Ver) : Bool × List HttpEv :=
  match uh_file_header_lookup headers (String.toList "If-Match") with
  | none => (true, [])
  | some h =>
    if tokenListMatches (uh_file_mktag s) h then (true, [])
    else (false, uh_file_response_412 v)

/-- `uh_file_if_range`: mere presence fails with 412. -/
def uh_file_if_range (headers : List (List Char × List Char)) (v : Ver) :
    Bool × List HttpEv :=
  match uh_file_header_lookup headers (String.toList "If-Range") with
  | none => (true, [])
  | some _ => (false, uh_file_response_412 v)

/-- `uh_file_if_unmodified_since`: present and `date2unix(hdr) <= mtime` ⇒
412. -/
def uh_file_if_unmodified_since (headers : List (List Char × List Char))
    (s : FileStat) (date2unix : List Char → Nat) (v : Ver) : Bool × List HttpEv :=
  match uh_file_header_lookup headers (String.toList "If-Unmodified-Since") with
  | none => (true, [])
  | some h =>
    if date2unix h ≤ s.st_mtime then (false, uh_file_response_412 v)
    else (true, [])

/-- `uh_file_if_none_match`: a token equal to the tag or `*` fails — 304
for GET/HEAD, 412 otherwise. -/
def uh_file_if_none_match (headers : List (List Char × List Char)) (s : FileStat)
    (m : Method) (v : Ver) (unix2date : Nat → List Char) (now : Nat) :
    Bool × List HttpEv :=
  match uh_file_header_lookup headers (String.toList "If-None-Match") with
  | none => (true, [])
  | some h =>
    if tokenListMatches (uh_file_mktag s) h then
      (false,
        if m = Method.GET ∨ m = Method.HEAD then uh_file_response_304 v s unix2date now
        else uh_file_response_412 v)
    else (true, [])

/-- `if (ok) ensure_out(check(...))`: a later conditional runs only while
`ok` still holds; its emissions are appended. -/
def chainCond (a : Bool × List HttpEv) (f : Unit → Bool × List HttpEv) :
    Bool × List HttpEv :=
  if a.1 then ((f ()).1, a.2 ++ (f ()).2) else a

/-- The five-test precondition block of `uh_file_request` (lines 362-366),
in source order: If-Modified-Since, If-Match, If-Range,
If-Unmodified-Since, If-None-Match. -/
def uh_file_preconditions (v : Ver) (m : Method)
    (headers : List (List Char × List Char)) (s : FileStat)
    (date2unix : List Char → Nat) (unix2date : Nat → List Char) (now : Nat) :
    Bool × List HttpEv :=
  chainCond (chainCond (chainCond (chainCond
    (uh_file_if_modified_since headers s date2unix v unix2date now)
    (fun _ => uh_file_if_match headers s v))
    (fun _ => uh_file_if_range headers v))
    (fun _ => uh_file_if_unmodified_since headers s date2unix v))
    (fun _ => uh_file_if_none_match headers s m v unix2date now)

/-- Decimal rendering of `%i` for the `Content-Length` header. -/
def decStr (n : Nat) : List Char := Nat.toDigits 10 n

/-- `uh_http_sendhf(cl, code, summary, ...)`: fixed `HTTP/1.1` status,
`Connection: close`, `Content-Type: text/plain`,
`Transfer-Encoding: chunked`, blank line, one body chunk, terminator. -/
def uh_http_sendhf (code : Nat) (summary bodyTxt : List Char) : List HttpEv :=
  [HttpEv.statusLine (String.toList "HTTP/1.1") code summary,
   HttpEv.header (String.toList "Connection") (String.toList "close"),
   HttpEv.header (String.toList "Content-Type") (String.toList "text/plain"),
   HttpEv.header (String.toList "Transfer-Encoding") (String.toList "chunked"),
   HttpEv.blank,
   HttpEv.body bodyTxt,
   HttpEv.body []]

/-- `uh_file_dirlist`: after the headers were already closed, emits only
body fragments — the HTML banner, one line per world-executable
subdirectory, then one per world-readable non-directory, then the footer
and the empty terminating chunk.  `scanRes` is the external `scandir`
result (filtered of `"."`, alphasorted); each fragment is modelled by the
entry name it renders (the exact HTML, dates and the `%.02f` KiB figure —
floating point — are abstracted into the event payload). -/
def uh_file_dirlist (pname phys : List Char) (scanRes : List (List Char))
    (fsStat : List Char → Option FileStat) : List HttpEv :=
  [HttpEv.body pname] ++
  (scanRes.filterMap (fun nm =>
    match fsStat (phys ++ nm) with
    | some s =>
      if s.st_mode &&& S_IFDIR ≠ 0 ∧ s.st_mode &&& S_IXOTH ≠ 0
      then some (HttpEv.body nm) else none
    | none => none)) ++
  (scanRes.filterMap (fun nm =>
    match fsStat (phys ++ nm) with
    | some s =>
      if ¬ s.st_mode &&& S_IFDIR ≠ 0 ∧ s.st_mode &&& S_IROTH ≠ 0
      then some (HttpEv.body nm) else none
    | none => none)) ++
  [HttpEv.body (String.toList "</ol><hr /></body></html>"), HttpEv.body []]

/-- `uh_file_request(cl, pi)`: the full emission.  `openOk` models
`open(pi->phys, O_RDONLY) > 0`, `fileChunks` the successive `read`
results, `scanRes`/`fsStat` the externals of the directory branch. -/
def uh_file_request (v : Ver) (m : Method)
    (headers : List (List Char × List Char)) (phys pname : List Char)
    (s : FileStat) (openOk : Bool) (no_dirlists : Bool)
    (mimeTable : List (List Char × List Char)) (date2unix : List Char → Nat)
    (unix2date : Nat → List Char) (now : Nat) (fileChunks : List (List Char))
    (scanRes : List (List Char)) (fsStat : List Char → Option FileStat) :
    List HttpEv :=
  if s.st_mode &&& S_IFREG ≠ 0 ∧ openOk = true then
    let pre := uh_file_preconditions v m headers s date2unix unix2date now
    if pre.1 then
      pre.2
      ++ uh_file_response_200 v (some s) unix2date now
      ++ [HttpEv.header (String.toList "Content-Type") (uh_file_mime_lookup mimeTable pname),
          HttpEv.header (String.toList "Content-Length") (decStr s.st_size)]
      ++ (if verAbove10 v = true ∧ m ≠ Method.HEAD
          then [HttpEv.header (String.toList "Transfer-Encoding") (String.toList "chunked")]
          else [])
      ++ [HttpEv.blank]
      ++ (if m ≠ Method.HEAD then (fileChunks.map HttpEv.body) ++ [HttpEv.body []] else [])
    else pre.2 ++ [HttpEv.blank]
  else if s.st_mode &&& S_IFDIR ≠ 0 ∧ no_dirlists = false then
    uh_file_response_200 v none unix2date now
    ++ (if verAbove10 v = true
        then [HttpEv.header (String.toList "Transfer-Encoding") (String.toList "chunked")]
        else [])
    ++ [HttpEv.header (String.toList "Content-Type") (String.toList "text/html"), HttpEv.blank]
    ++ uh_file_dirlist pname phys scanRes fsStat
  else
    uh_http_sendhf 403 (String.toList "Forbidden")
      (String.toList "Access to this resource is forbidden")

/-- C2: if the `If-Modified-Since` header indicates the file unmodified
(`date2unix(hdr) >= mtime`) and the `If-None-Match` header matches the
entity tag, the conditional block of `uh_file_request` — which evaluates
If-Modified-Since, If-Match, If-Range, If-Unmodified-Since, If-None-Match
in that order and stops at the first failure — emits exactly the single
304 response (followed by the blank line closing the header section). -/
theorem C2_conditional_precedence (v : Ver) (m : Method)
    (headers : List (List Char × List Char)) (phys pname : List Char)
    (s : FileStat) (no_dirlists : Bool) (mimeTable : List (List Char × List Char))
    (date2unix : List Char → Nat) (unix2date : Nat → List Char) (now : Nat)
    (fileChunks : List (List Char)) (scanRes : List (List Char))
    (fsStat : List Char → Option FileStat)
    (hreg : s.st_mode &&& S_IFREG ≠ 0)
    (hims : ∃ h, uh_file_header_lookup headers (String.toList "If-Modified-Since")
        = some h ∧ s.st_mtime ≤ date2unix h)
    (_hinm : ∃ h, uh_file_header_lookup headers (String.toList "If-None-Match")
        = some h ∧ tokenListMatches (uh_file_mktag s) h = true) :
    uh_file_request v m headers phys pname s true no_dirlists mimeTable
        date2unix unix2date now fileChunks scanRes fsStat
      = uh_file_response_304 v s unix2date now ++ [HttpEv.blank] ∧
    statusCodes (uh_file_request v m headers phys pname s true no_dirlists
        mimeTable date2unix unix2date now fileChunks scanRes fsStat) = [304] := by
  obtain ⟨h1, hlook, hcmp⟩ := hims
  have hpre : uh_file_preconditions v m headers s date2unix unix2date now
      = (false, uh_file_response_304 v s unix2date now) := by
    have hfirst : uh_file_if_modified_since headers s date2unix v unix2date now
        = (false, uh_file_response_304 v s unix2date now) := by
      simp only [uh_file_if_modified_since, hlook, if_pos hcmp]
    simp only [uh_file_preconditions, hfirst, chainCond]
    simp
  have hmain : uh_file_request v m headers phys pname s true no_dirlists mimeTable
      date2unix unix2date now fileChunks scanRes fsStat
      = uh_file_response_304 v s unix2date now ++ [HttpEv.blank] := by
    simp only [uh_file_request, hpre, and_true]
    rw [if_pos hreg]
    simp
  refine ⟨hmain, ?_⟩
  rw [hmain]
  simp [statusCodes, uh_file_response_304, uh_file_response_ok_hdrs]

/-- Witness for C2 at a concrete request: GET, HTTP/1.1, both conditional
headers present and matching; the emission is the single 304 response. -/
theorem C2_conditional_precedence_witness :
    statusCodes (uh_file_request Ver.V11 Method.GET
      [(String.toList "If-Modified-Since", String.toList "sometime"),
       (String.toList "If-None-Match", uh_file_mktag ⟨32768, 1, 2, 3⟩)]
      (String.toList "/d/f") (String.toList "/f") ⟨32768, 1, 2, 3⟩ true false []
      (fun _ => 100) (fun _ => String.toList "D") 0 [] [] (fun _ => none)) = [304] :=
  (C2_conditional_precedence Ver.V11 Method.GET _ _ _ ⟨32768, 1, 2, 3⟩ false []
    (fun _ => 100) (fun _ => String.toList "D") 0 [] [] (fun _ => none)
    (by decide)
    ⟨String.toList "sometime", by decide, by decide⟩
    ⟨uh_file_mktag ⟨32768, 1, 2, 3⟩, by decide, by decide⟩).2

/-- C5 as amended: the 200 response for a *regular file* and every 304
carry exactly the headers `Connection`, `ETag`, `Last-Modified`, `Date`
(before the entity headers); a 412 carries `Connection` only; but the
directory-listing 200 — `uh_file_response_200(cl, NULL)` — carries only
`Connection` and `Date`, with no `ETag` or `Last-Modified`. -/
theorem C5_response_headers_amended :
    (∀ (v : Ver) (s : FileStat) (unix2date : Nat → List Char) (now : Nat),
      headerNames (uh_file_response_200 v (some s) unix2date now)
        = [String.toList "Connection", String.toList "ETag",
           String.toList "Last-Modified", String.toList "Date"]) ∧
    (∀ (v : Ver) (s : FileStat) (unix2date : Nat → List Char) (now : Nat),
      headerNames (uh_file_response_304 v s unix2date now)
        = [String.toList "Connection", String.toList "ETag",
           String.toList "Last-Modified", String.toList "Date"]) ∧
    (∀ v : Ver, headerNames (uh_file_response_412 v) = [String.toList "Connection"]) ∧
    (∀ (v : Ver) (unix2date : Nat → List Char) (now : Nat),
      headerNames (uh_file_response_200 v none unix2date now)
        = [String.toList "Connection", String.toList "Date"]) := by
  refine ⟨?_, ?_, ?_, ?_⟩ <;> intros <;>
    simp [headerNames, uh_file_response_200, uh_file_response_304,
      uh_file_response_412, uh_file_response_ok_hdrs]

/-- C5 counterexample to the claim as stated: a directory-listing request
(HTTP/1.1, listable directory) is answered by `uh_file_request` with a 200
whose headers are `Connection`, `Transfer-Encoding`, `Content-Type` and
`Date` — no `ETag` and no `Last-Modified`, contradicting "every 2xx …
includes … ETag, Last-Modified". -/
theorem C5_counterexample :
    statusCodes (uh_file_request Ver.V11 Method.GET [] (String.toList "/d/")
        (String.toList "/") ⟨16384, 1, 2, 3⟩ false false [] (fun _ => 0)
        (fun _ => String.toList "D") 0 [] [] (fun _ => none)) = [200] ∧
    ¬ String.toList "ETag" ∈ headerNames (uh_file_request Ver.V11 Method.GET []
        (String.toList "/d/") (String.toList "/") ⟨16384, 1, 2, 3⟩ false false []
        (fun _ => 0) (fun _ => String.toList "D") 0 [] [] (fun _ => none)) ∧
    ¬ String.toList "Last-Modified" ∈ headerNames (uh_file_request Ver.V11
        Method.GET [] (String.toList "/d/") (String.toList "/") ⟨16384, 1, 2, 3⟩
        false false [] (fun _ => 0) (fun _ => String.toList "D") 0 [] []
        (fun _ => none)) := by
  refine ⟨by decide, by decide, by decide⟩

/-! ## canonpath (uhttpd-utils.c lines 474-548)

The normalization loop walks `path_copy` with `path_cpy` (position `pos`,
bounded by `PATH_MAX - 2`) and writes to `path_resolved` (`racc`, kept in
reverse).  `fuel` is only a structural-recursion bound: every step consumes
at least one input character, so `input.length + 1` steps always finish the
loop; it has no counterpart in the C code. -/

/-- The `/x/..` collapse:
`while ((path_res > path_resolved) && (*--path_res != '/'));` — drop the
trailing segment and the `/` before it (pops nothing on an empty output,
and stops at the start if no `/` is found). -/
def popSeg (racc : List Char) : List Char :=
  (racc.dropWhile (fun c => c ≠ '/')).drop 1

/-- The normalize loop of `canonpath`.  At a `/` it skips a repeated `/`,
skips `/.` before a `/` or the end, collapses `/..` (before a `/` or the
end) via `popSeg`, and otherwise copies; any other byte is copied.  The
loop stops at the end of the input or at position `bound`
(= `PATH_MAX - 2`). -/
def normLoop (bound : Nat) : Nat → Nat → List Char → List Char → List Char
  | 0, _, racc, _ => racc
  | fuel + 1, pos, racc, input =>
    match input with
    | [] => racc
    | c :: rest =>
      if bound ≤ pos then racc
      else if c = '/' then
        if rest.headD nul = '/' then normLoop bound fuel (pos + 1) racc rest
        else
          match rest with
          | '.' :: rest2 =>
            if rest2.headD nul = '/' then normLoop bound fuel (pos + 2) racc rest2
            else if rest2 = [] then racc
            else
              match rest2 with
              | '.' :: rest3 =>
                if rest3.headD nul = '/' then
                  normLoop bound fuel (pos + 3) (popSeg racc) rest3
                else if rest3 = [] then popSeg racc
                else normLoop bound fuel (pos + 1) ('/' :: racc) rest
              | _ => normLoop bound fuel (pos + 1) ('/' :: racc) rest
          | _ => normLoop bound fuel (pos + 1) ('/' :: racc) rest
      else normLoop bound fuel (pos + 1) (c :: racc) rest

/-- The post-loop fixup: drop one trailing `/` unless the output is just
`/`; an empty output becomes `/`. -/
def trimSlash (out : List Char) : List Char :=
  if 1 < out.length ∧ out.getLast? = some '/' then out.dropLast
  else if out.length = 0 then ['/']
  else out

/-- `canonpath(path, path_resolved)`.  `PM` is the platform `PATH_MAX`,
`fsStat` the external `stat`, `cwd` the `getcwd` result used for relative
paths.  A relative path is prefixed with `cwd` and `/` (`snprintf` bounded
by `PATH_MAX`), an absolute one copied (`strncpy`, `PATH_MAX - 1` bytes);
the normalized, trimmed result is returned only if it stats and is
world-readable. -/
def canonpath (PM : Nat) (fsStat : List Char → Option FileStat)
    (cwd path : List Char) : Option (List Char) :=
  let pcopy := if path.headD nul ≠ '/' then (cwd ++ '/' :: path).take (PM - 1)
    else path.take (PM - 1)
  let res := trimSlash ((normLoop (PM - 2) (pcopy.length + 1) 0 [] pcopy).reverse)
  match fsStat res with
  | some st => if st.st_mode &&& S_IROTH ≠ 0 then some res else none
  | none => none

/-- What the `/`-copy fall-through knows about the remaining input: the
upcoming segment is not empty and not the special `.` or `..`. -/
def segOK (l : List Char) : Prop :=
  l.head? ≠ some '/' ∧ l ≠ ['.'] ∧ (∀ x, l ≠ '.' :: '/' :: x) ∧
  l ≠ ['.', '.'] ∧ (∀ x, l ≠ '.' :: '.' :: '/' :: x)

/-- Loop invariant of `normLoop`, on the reversed output `racc` and the
remaining input `l`.  The three banned byte patterns are palindromes, so
they are stated on `racc` directly; forward endings `/.`, `/..`, `/` of
the output correspond to the starts of `racc`. -/
structure NormInv (racc l : List Char) : Prop where
  noSS : ¬ ['/', '/'] <:+: racc
  noSDS : ¬ ['/', '.', '/'] <:+: racc
  noSDDS : ¬ ['/', '.', '.', '/'] <:+: racc
  dotCond : ∀ r, racc = '.' :: '/' :: r → segOK ('.' :: l)
  ddotCond : ∀ r, racc = '.' :: '.' :: '/' :: r → segOK ('.' :: '.' :: l)
  slashCond : racc.head? = some '/' → segOK l
  emptyCond : racc = [] → l = [] ∨ l.head? = some '/'
  lastCond : racc = [] ∨ racc.getLast? = some '/'

/-- Normal form of a canonicalized (forward) path: no `//`, `/./`, `/../`
inside and no trailing `/.` or `/..`. -/
def NormalForm (l : List Char) : Prop :=
  ¬ ['/', '/'] <:+: l ∧ ¬ ['/', '.', '/'] <:+: l ∧ ¬ ['/', '.', '.', '/'] <:+: l ∧
  ¬ ['/', '.'] <:+ l ∧ ¬ ['/', '.', '.'] <:+ l

theorem popSeg_suffix (racc : List Char) : popSeg racc <:+ racc := by
  have h1 : racc.dropWhile (fun c => c ≠ '/') <:+ racc := List.dropWhile_suffix _
  exact (List.drop_suffix 1 _).trans h1

theorem normLoop_fuel0 (bound pos : Nat) (racc l : List Char) :
    normLoop bound 0 pos racc l = racc := rfl

theorem normLoop_nil (bound fuel pos : Nat) (racc : List Char) :
    normLoop bound (fuel + 1) pos racc [] = racc := rfl

theorem normLoop_stop (bound fuel pos : Nat) (racc rest : List Char) (c : Char)
    (hb : bound ≤ pos) :
    normLoop bound (fuel + 1) pos racc (c :: rest) = racc := by
  rw [normLoop.eq_def]
  simp only [if_pos hb]

theorem normLoop_copy (bound fuel pos : Nat) (racc rest : List Char) (c : Char)
    (hb : ¬ bound ≤ pos) (hc : ¬ c = '/') :
    normLoop bound (fuel + 1) pos racc (c :: rest)
      = normLoop bound fuel (pos + 1) (c :: racc) rest := by
  rw [normLoop.eq_def]
  simp only [if_neg hb, if_neg hc]

theorem normLoop_skipSS (bound fuel pos : Nat) (racc rest : List Char)
    (hb : ¬ bound ≤ pos) (h1 : rest.headD nul = '/') :
    normLoop bound (fuel + 1) pos racc ('/' :: rest)
      = normLoop bound fuel (pos + 1) racc rest := by
  rw [normLoop.eq_def]
  simp only [if_neg hb, h1]
  rfl

theorem normLoop_skipSDS (bound fuel pos : Nat) (racc rest2 : List Char)
    (hb : ¬ bound ≤ pos) (h2 : rest2.headD nul = '/') :
    normLoop bound (fuel + 1) pos racc ('/' :: '.' :: rest2)
      = normLoop bound fuel (pos + 2) racc rest2 := by
  rw [normLoop.eq_def]
  simp only [if_neg hb, h2]
  rfl

theorem normLoop_dotEnd (bound fuel pos : Nat) (racc : List Char)
    (hb : ¬ bound ≤ pos) :
    normLoop bound (fuel + 1) pos racc ['/', '.'] = racc := by
  rw [normLoop.eq_def]
  simp only [if_neg hb]
  rfl

theorem normLoop_pop (bound fuel pos : Nat) (racc rest3 : List Char)
    (hb : ¬ bound ≤ pos) (h3 : rest3.headD nul = '/') :
    normLoop bound (fuel + 1) pos racc ('/' :: '.' :: '.' :: rest3)
      = normLoop bound fuel (pos + 3) (popSeg racc) rest3 := by
  rw [normLoop.eq_def]
  simp only [if_neg hb, h3]
  rfl

theorem normLoop_ddotEnd (bound fuel pos : Nat) (racc : List Char)
    (hb : ¬ bound ≤ pos) :
    normLoop bound (fuel + 1) pos racc ['/', '.', '.'] = popSeg racc := by
  rw [normLoop.eq_def]
  simp only [if_neg hb]
  rfl

theorem normLoop_slashEnd (bound fuel pos : Nat) (racc : List Char)
    (hb : ¬ bound ≤ pos) :
    normLoop bound (fuel + 1) pos racc ['/']
      = normLoop bound fuel (pos + 1) ('/' :: racc) [] := by
  rw [normLoop.eq_def]
  simp only [if_neg hb]
  rfl

theorem normLoop_slashCopy1 (bound fuel pos : Nat) (racc rest2 : List Char)
    (r : Char) (hb : ¬ bound ≤ pos) (hr1 : ¬ r = '/') (hr2 : ¬ r = '.') :
    normLoop bound (fuel + 1) pos racc ('/' :: r :: rest2)
      = normLoop bound fuel (pos + 1) ('/' :: racc) (r :: rest2) := by
  rw [normLoop.eq_def]
  have hh : (r :: rest2).headD nul ≠ '/' := by simpa using hr1
  simp only [if_neg hb, if_neg hh]
  split
  · split
    · rename_i heq
      simp only [List.cons.injEq] at heq
      exact absurd heq.1 hr2
    · rfl
  · rfl

theorem normLoop_slashCopy2 (bound fuel pos : Nat) (racc rest3 : List Char)
    (r2 : Char) (hb : ¬ bound ≤ pos) (hr1 : ¬ r2 = '/') (hr2 : ¬ r2 = '.') :
    normLoop bound (fuel + 1) pos racc ('/' :: '.' :: r2 :: rest3)
      = normLoop bound fuel (pos + 1) ('/' :: racc) ('.' :: r2 :: rest3) := by
  rw [normLoop.eq_def]
  have hh : (r2 :: rest3).headD nul ≠ '/' := by simpa using hr1
  have hh0 : ('.' :: r2 :: rest3).headD nul ≠ '/' := by simp
  simp only [if_neg hb, if_neg hh, if_neg hh0]
  simp only [if_pos trivial, if_neg (show ¬ (r2 :: rest3 = ([] : List Char)) by simp)]
  split
  · rename_i heq
    simp only [List.cons.injEq] at heq
    exact absurd heq.1 hr2
  · rfl

theorem normLoop_slashCopy3 (bound fuel pos : Nat) (racc rest4 : List Char)
    (r3 : Char) (hb : ¬ bound ≤ pos) (hr1 : ¬ r3 = '/') :
    normLoop bound (fuel + 1) pos racc ('/' :: '.' :: '.' :: r3 :: rest4)
      = normLoop bound fuel (pos + 1) ('/' :: racc) ('.' :: '.' :: r3 :: rest4) := by
  rw [normLoop.eq_def]
  have hh : (r3 :: rest4).headD nul ≠ '/' := by simpa using hr1
  have hh0 : ('.' :: '.' :: r3 :: rest4).headD nul ≠ '/' := by simp
  have hh1 : ('.' :: r3 :: rest4).headD nul ≠ '/' := by simp
  simp only [if_neg hb, if_neg hh, if_neg hh0, if_neg hh1]
  simp only [if_pos trivial,
    if_neg (show ¬ ('.' :: r3 :: rest4 = ([] : List Char)) by simp),
    if_neg (show ¬ (r3 :: rest4 = ([] : List Char)) by simp)]

theorem normLoop_length (bound : Nat) :
    ∀ (fuel : Nat) (l : List Char) (pos : Nat) (racc : List Char),
    (normLoop bound fuel pos racc l).length ≤ racc.length + l.length := by
  intro fuel
  induction fuel with
  | zero =>
    intro l pos racc
    rw [normLoop_fuel0]
    omega
  | succ fuel ih =>
    intro l pos racc
    cases l with
    | nil => rw [normLoop_nil]; simp
    | cons c rest =>
      by_cases hb : bound ≤ pos
      · rw [normLoop_stop _ _ _ _ _ _ hb]; simp
      by_cases hc : c = '/'
      · subst hc
        cases rest with
        | nil =>
          rw [normLoop_slashEnd _ _ _ _ hb]
          have := ih [] (pos + 1) ('/' :: racc)
          simp only [List.length_cons, List.length_nil] at this ⊢
          omega
        | cons r rest2 =>
          by_cases hr : r = '/'
          · rw [normLoop_skipSS _ _ _ _ _ hb (by simp [hr])]
            have := ih (r :: rest2) (pos + 1) racc
            simp only [List.length_cons] at this ⊢
            omega
          by_cases hrd : r = '.'
          · subst hrd
            cases rest2 with
            | nil =>
              rw [normLoop_dotEnd _ _ _ _ hb]
              simp only [List.length_cons]
              omega
            | cons r2 rest3 =>
              by_cases hr2 : r2 = '/'
              · rw [normLoop_skipSDS _ _ _ _ _ hb (by simp [hr2])]
                have := ih (r2 :: rest3) (pos + 2) racc
                simp only [List.length_cons] at this ⊢
                omega
              by_cases hr2d : r2 = '.'
              · subst hr2d
                cases rest3 with
                | nil =>
                  rw [normLoop_ddotEnd _ _ _ _ hb]
                  have := (popSeg_suffix racc).length_le
                  simp only [List.length_cons]
                  omega
                | cons r3 rest4 =>
                  by_cases hr3 : r3 = '/'
                  · rw [normLoop_pop _ _ _ _ _ hb (by simp [hr3])]
                    have h1 := ih (r3 :: rest4) (pos + 3) (popSeg racc)
                    have h2 := (popSeg_suffix racc).length_le
                    simp only [List.length_cons] at h1 ⊢
                    omega
                  · rw [normLoop_slashCopy3 _ _ _ _ _ _ hb hr3]
                    have := ih ('.' :: '.' :: r3 :: rest4) (pos + 1) ('/' :: racc)
                    simp only [List.length_cons] at this ⊢
                    omega
              · rw [normLoop_slashCopy2 _ _ _ _ _ _ hb hr2 hr2d]
                have := ih ('.' :: r2 :: rest3) (pos + 1) ('/' :: racc)
                simp only [List.length_cons] at this ⊢
                omega
          · rw [normLoop_slashCopy1 _ _ _ _ _ _ hb hr hrd]
            have := ih (r :: rest2) (pos + 1) ('/' :: racc)
            simp only [List.length_cons] at this ⊢
            omega
      · rw [normLoop_copy _ _ _ _ _ _ hb hc]
        have := ih rest (pos + 1) (c :: racc)
        simp only [List.length_cons] at this ⊢
        omega

theorem NormalForm_suffix {l s : List Char} (h : NormalForm l) (hs : s <:+ l) :
    NormalForm s := by
  obtain ⟨h1, h2, h3, h4, h5⟩ := h
  exact ⟨fun hp => h1 (hp.trans hs.isInfix), fun hp => h2 (hp.trans hs.isInfix),
    fun hp => h3 (hp.trans hs.isInfix), fun hp => h4 (hp.trans hs),
    fun hp => h5 (hp.trans hs)⟩

theorem normLoop_copy_all (bound : Nat) :
    ∀ (fuel : Nat) (l : List Char) (pos : Nat) (racc : List Char),
    NormalForm l → l.length ≤ fuel → pos + l.length ≤ bound →
    normLoop bound fuel pos racc l = l.reverse ++ racc := by
  intro fuel
  induction fuel with
  | zero =>
    intro l pos racc _ hf _
    rw [Nat.le_zero] at hf
    rw [List.length_eq_zero] at hf
    subst hf
    rw [normLoop_fuel0]
    rfl
  | succ fuel ih =>
    intro l pos racc hnf hf hpos
    cases l with
    | nil => rw [normLoop_nil]; rfl
    | cons c rest =>
      have hb : ¬ bound ≤ pos := by
        simp only [List.length_cons] at hpos
        omega
      have hrest : NormalForm rest := NormalForm_suffix hnf (List.suffix_cons c rest)
      have hfr : rest.length ≤ fuel := by
        simp only [List.length_cons] at hf; omega
      have hposr : pos + 1 + rest.length ≤ bound := by
        simp only [List.length_cons] at hpos; omega
      by_cases hc : c = '/'
      · subst hc
        cases rest with
        | nil =>
          rw [normLoop_slashEnd _ _ _ _ hb]
          cases fuel with
          | zero => rw [normLoop_fuel0]; rfl
          | succ fuel => rw [normLoop_nil]; rfl
        | cons r rest2 =>
          by_cases hr : r = '/'
          · exfalso
            subst hr
            exact hnf.1 (List.IsPrefix.isInfix ⟨rest2, rfl⟩)
          by_cases hrd : r = '.'
          · subst hrd
            cases rest2 with
            | nil => exact absurd (List.suffix_refl _) hnf.2.2.2.1
            | cons r2 rest3 =>
              by_cases hr2 : r2 = '/'
              · exfalso
                subst hr2
                exact hnf.2.1 (List.IsPrefix.isInfix ⟨rest3, rfl⟩)
              by_cases hr2d : r2 = '.'
              · subst hr2d
                cases rest3 with
                | nil => exact absurd (List.suffix_refl _) hnf.2.2.2.2
                | cons r3 rest4 =>
                  by_cases hr3 : r3 = '/'
                  · exfalso
                    subst hr3
                    exact hnf.2.2.1 (List.IsPrefix.isInfix ⟨rest4, rfl⟩)
                  · rw [normLoop_slashCopy3 _ _ _ _ _ _ hb hr3]
                    rw [ih _ _ _ hrest hfr hposr]
                    simp
              · rw [normLoop_slashCopy2 _ _ _ _ _ _ hb hr2 hr2d]
                rw [ih _ _ _ hrest hfr hposr]
                simp
          · rw [normLoop_slashCopy1 _ _ _ _ _ _ hb hr hrd]
            rw [ih _ _ _ hrest hfr hposr]
            simp
      · rw [normLoop_copy _ _ _ _ _ _ hb hc]
        rw [ih _ _ _ hrest hfr hposr]
        simp

theorem dropWhile_head_false {p : Char → Bool} :
    ∀ (l : List Char) (d : Char) (t : List Char), l.dropWhile p = d :: t → p d = false := by
  intro l
  induction l with
  | nil => intro d t h; simp [List.dropWhile] at h
  | cons c rest ih =>
    intro d t h
    rw [List.dropWhile_cons] at h
    split at h
    · exact ih d t h
    · rename_i hp
      simp only [List.cons.injEq] at h
      rw [← h.1]
      simpa using hp

/-- A non-empty `popSeg` result means the output contained a `/` and the
pop removed the trailing segment after it. -/
theorem popSeg_decomp (racc : List Char) (h : popSeg racc ≠ []) :
    ∃ pre, racc = pre ++ '/' :: popSeg racc := by
  cases hdw : racc.dropWhile (fun c => c ≠ '/') with
  | nil =>
    exfalso
    apply h
    unfold popSeg
    rw [hdw]
    rfl
  | cons d t =>
    have hd : d = '/' := by
      have := dropWhile_head_false racc d t hdw
      simpa using this
    subst hd
    have hps : popSeg racc = t := by
      unfold popSeg
      rw [hdw]
      rfl
    refine ⟨racc.takeWhile (fun c => c ≠ '/'), ?_⟩
    rw [hps]
    conv_lhs => rw [← List.takeWhile_append_dropWhile (fun c => c ≠ '/') racc]
    rw [hdw]

theorem segOK_nil : segOK [] := by
  refine ⟨by simp, by simp, fun x => by simp, by simp, fun x => by simp⟩

/-- The invariant is preserved by the whole loop: starting from an
invariant state and processing the rest of the input within the position
bound, the final reversed output satisfies the invariant with no input
left — i.e. it is in normal form, ends in no partial `.`/`..` segment and
(unless empty) started with `/`. -/
theorem normLoop_inv (bound : Nat) :
    ∀ (fuel : Nat) (l : List Char) (pos : Nat) (racc : List Char),
    NormInv racc l → l.length ≤ fuel → pos + l.length ≤ bound →
    NormInv (normLoop bound fuel pos racc l) [] := by
  intro fuel
  induction fuel with
  | zero =>
    intro l pos racc hinv hf _
    rw [Nat.le_zero] at hf
    rw [List.length_eq_zero] at hf
    subst hf
    rw [normLoop_fuel0]
    exact hinv
  | succ fuel ih =>
    intro l pos racc hinv hf hpos
    cases l with
    | nil => rw [normLoop_nil]; exact hinv
    | cons c rest =>
      have hb : ¬ bound ≤ pos := by
        simp only [List.length_cons] at hpos
        omega
      have hfr : rest.length ≤ fuel := by
        simp only [List.length_cons] at hf; omega
      have hposr : pos + 1 + rest.length ≤ bound := by
        simp only [List.length_cons] at hpos; omega
      by_cases hc : c = '/'
      · subst hc
        have hnoDot : ∀ r, racc = '.' :: '/' :: r → False := by
          intro r hr
          exact (hinv.dotCond r hr).2.2.1 rest rfl
        have hnoDDot : ∀ r, racc = '.' :: '.' :: '/' :: r → False := by
          intro r hr
          exact (hinv.ddotCond r hr).2.2.2.2 rest rfl
        have hnoSlashHead : ¬ racc.head? = some '/' := by
          intro hh
          exact (hinv.slashCond hh).1 (by simp)
        cases rest with
        | nil =>
          rw [normLoop_slashEnd _ _ _ _ hb]
          have hinv2 : NormInv ('/' :: racc) [] := by
            refine ⟨?_, ?_, ?_, ?_, ?_, ?_, ?_, ?_⟩
            · intro hinf
              rcases List.infix_cons_iff.1 hinf with hp | hi
              · obtain ⟨t, ht⟩ := hp
                simp only [List.cons_append, List.cons.injEq, List.nil_append] at ht
                exact hnoSlashHead (by rw [← ht.2]; simp)
              · exact hinv.noSS hi
            · intro hinf
              rcases List.infix_cons_iff.1 hinf with hp | hi
              · obtain ⟨t, ht⟩ := hp
                simp only [List.cons_append, List.cons.injEq, List.nil_append] at ht
                exact hnoDot t ht.2.symm
              · exact hinv.noSDS hi
            · intro hinf
              rcases List.infix_cons_iff.1 hinf with hp | hi
              · obtain ⟨t, ht⟩ := hp
                simp only [List.cons_append, List.cons.injEq, List.nil_append] at ht
                exact hnoDDot t ht.2.symm
              · exact hinv.noSDDS hi
            · intro r hr; cases hr
            · intro r hr; cases hr
            · intro _; exact segOK_nil
            · intro h0; cases h0
            · right
              cases hra : racc with
              | nil => rfl
              | cons a t =>
                rw [show ('/' :: a :: t) = [('/' : Char)] ++ (a :: t) from rfl]
                rw [List.getLast?_append_of_ne_nil _ (by simp)]
                rw [← hra]
                exact hinv.lastCond.resolve_left (by rw [hra]; simp)
          cases fuel with
          | zero => rw [normLoop_fuel0]; exact hinv2
          | succ fuel => rw [normLoop_nil]; exact hinv2
        | cons r rest2 =>
          by_cases hr : r = '/'
          · subst hr
            rw [normLoop_skipSS _ _ _ _ _ hb (by simp)]
            refine ih _ _ _ ⟨hinv.noSS, hinv.noSDS, hinv.noSDDS, ?_, ?_, ?_, ?_,
              hinv.lastCond⟩ hfr hposr
            · intro r hr; exact absurd hr (fun h => hnoDot r h)
            · intro r hr; exact absurd hr (fun h => hnoDDot r h)
            · intro hh; exact absurd hh hnoSlashHead
            · intro _; right; simp
          by_cases hrd : r = '.'
          · subst hrd
            cases rest2 with
            | nil =>
              rw [normLoop_dotEnd _ _ _ _ hb]
              refine ⟨hinv.noSS, hinv.noSDS, hinv.noSDDS, ?_, ?_, ?_, ?_, hinv.lastCond⟩
              · intro r hr; exact absurd hr (fun h => hnoDot r h)
              · intro r hr; exact absurd hr (fun h => hnoDDot r h)
              · intro hh; exact absurd hh hnoSlashHead
              · intro _; left; rfl
            | cons r2 rest3 =>
              by_cases hr2 : r2 = '/'
              · subst hr2
                rw [normLoop_skipSDS _ _ _ _ _ hb (by simp)]
                have hfr2 : rest3.length + 1 ≤ fuel := by
                  simp only [List.length_cons] at hf; omega
                have hposr2 : pos + 2 + ('/' :: rest3).length ≤ bound := by
                  simp only [List.length_cons] at hpos ⊢; omega
                refine ih _ _ _ ⟨hinv.noSS, hinv.noSDS, hinv.noSDDS, ?_, ?_, ?_, ?_,
                  hinv.lastCond⟩ (by simpa using hfr2) hposr2
                · intro r hr; exact absurd hr (fun h => hnoDot r h)
                · intro r hr; exact absurd hr (fun h => hnoDDot r h)
                · intro hh; exact absurd hh hnoSlashHead
                · intro _; right; simp
              by_cases hr2d : r2 = '.'
              · subst hr2d
                cases rest3 with
                | nil =>
                  rw [normLoop_ddotEnd _ _ _ _ hb]
                  refine ⟨?_, ?_, ?_, ?_, ?_, ?_, ?_, ?_⟩
                  · intro hinf
                    exact hinv.noSS (hinf.trans (popSeg_suffix racc).isInfix)
                  · intro hinf
                    exact hinv.noSDS (hinf.trans (popSeg_suffix racc).isInfix)
                  · intro hinf
                    exact hinv.noSDDS (hinf.trans (popSeg_suffix racc).isInfix)
                  · intro r hr
                    obtain ⟨pre, hpre⟩ := popSeg_decomp racc (by rw [hr]; simp)
                    exact absurd ⟨pre, r, by rw [hpre, hr]; simp⟩ hinv.noSDS
                  · intro r hr
                    obtain ⟨pre, hpre⟩ := popSeg_decomp racc (by rw [hr]; simp)
                    exact absurd ⟨pre, r, by rw [hpre, hr]; simp⟩ hinv.noSDDS
                  · intro hh
                    cases hps : popSeg racc with
                    | nil => rw [hps] at hh; cases hh
                    | cons a t =>
                      rw [hps] at hh
                      simp only [List.head?_cons, Option.some.injEq] at hh
                      subst hh
                      obtain ⟨pre, hpre⟩ := popSeg_decomp racc (by rw [hps]; simp)
                      exact absurd ⟨pre, t, by rw [hpre, hps]; simp⟩ hinv.noSS
                  · intro _; left; rfl
                  · cases hps : popSeg racc with
                    | nil => left; rfl
                    | cons a t =>
                      right
                      obtain ⟨pre, hpre⟩ := popSeg_decomp racc (by rw [hps]; simp)
                      have hlast := hinv.lastCond.resolve_left (by
                        rw [hpre]; simp)
                      rw [← hps]
                      rw [hpre] at hlast
                      rw [List.getLast?_append_of_ne_nil _ (by rw [hps]; simp)] at hlast
                      rw [show ('/' :: popSeg racc) = ['/'] ++ popSeg racc from rfl] at hlast
                      rw [List.getLast?_append_of_ne_nil _ (by rw [hps]; simp)] at hlast
                      exact hlast
                | cons r3 rest4 =>
                  by_cases hr3 : r3 = '/'
                  · subst hr3
                    rw [normLoop_pop _ _ _ _ _ hb (by simp)]
                    have hfr3 : ('/' :: rest4).length ≤ fuel := by
                      simp only [List.length_cons] at hf ⊢; omega
                    have hposr3 : pos + 3 + ('/' :: rest4).length ≤ bound := by
                      simp only [List.length_cons] at hpos ⊢; omega
                    refine ih _ _ _ ⟨?_, ?_, ?_, ?_, ?_, ?_, ?_, ?_⟩ hfr3 hposr3
                    · intro hinf
                      exact hinv.noSS (hinf.trans (popSeg_suffix racc).isInfix)
                    · intro hinf
                      exact hinv.noSDS (hinf.trans (popSeg_suffix racc).isInfix)
                    · intro hinf
                      exact hinv.noSDDS (hinf.trans (popSeg_suffix racc).isInfix)
                    · intro r hr
                      obtain ⟨pre, hpre⟩ := popSeg_decomp racc (by rw [hr]; simp)
                      exact absurd ⟨pre, r, by rw [hpre, hr]; simp⟩ hinv.noSDS
                    · intro r hr
                      obtain ⟨pre, hpre⟩ := popSeg_decomp racc (by rw [hr]; simp)
                      exact absurd ⟨pre, r, by rw [hpre, hr]; simp⟩ hinv.noSDDS
                    · intro hh
                      cases hps : popSeg racc with
                      | nil => rw [hps] at hh; cases hh
                      | cons a t =>
                        rw [hps] at hh
                        simp only [List.head?_cons, Option.some.injEq] at hh
                        subst hh
                        obtain ⟨pre, hpre⟩ := popSeg_decomp racc (by rw [hps]; simp)
                        exact absurd ⟨pre, t, by rw [hpre, hps]; simp⟩ hinv.noSS
                    · intro _; right; simp
                    · cases hps : popSeg racc with
                      | nil => left; rfl
                      | cons a t =>
                        right
                        obtain ⟨pre, hpre⟩ := popSeg_decomp racc (by rw [hps]; simp)
                        have hlast := hinv.lastCond.resolve_left (by
                          rw [hpre]; simp)
                        rw [← hps]
                        rw [hpre] at hlast
                        rw [List.getLast?_append_of_ne_nil _ (by rw [hps]; simp)] at hlast
                        rw [show ('/' :: popSeg racc) = ['/'] ++ popSeg racc from rfl] at hlast
                        rw [List.getLast?_append_of_ne_nil _ (by rw [hps]; simp)] at hlast
                        exact hlast
                  · rw [normLoop_slashCopy3 _ _ _ _ _ _ hb hr3]
                    refine ih _ _ _ ⟨?_, ?_, ?_, ?_, ?_, ?_, ?_, ?_⟩ hfr hposr
                    · intro hinf
                      rcases List.infix_cons_iff.1 hinf with hp | hi
                      · obtain ⟨t, ht⟩ := hp
                        simp only [List.cons_append, List.cons.injEq, List.nil_append] at ht
                        exact hnoSlashHead (by rw [← ht.2]; simp)
                      · exact hinv.noSS hi
                    · intro hinf
                      rcases List.infix_cons_iff.1 hinf with hp | hi
                      · obtain ⟨t, ht⟩ := hp
                        simp only [List.cons_append, List.cons.injEq, List.nil_append] at ht
                        exact hnoDot t ht.2.symm
                      · exact hinv.noSDS hi
                    · intro hinf
                      rcases List.infix_cons_iff.1 hinf with hp | hi
                      · obtain ⟨t, ht⟩ := hp
                        simp only [List.cons_append, List.cons.injEq, List.nil_append] at ht
                        exact hnoDDot t ht.2.symm
                      · exact hinv.noSDDS hi
                    · intro r hr; cases hr
                    · intro r hr; cases hr
                    · intro _
                      refine ⟨by simp, by simp, fun x hx => ?_, by simp, fun x hx => ?_⟩
                      · simp only [List.cons.injEq] at hx
                        exact absurd hx.2.1 (by simp)
                      · simp only [List.cons.injEq] at hx
                        exact hr3 hx.2.2.1
                    · intro h0; cases h0
                    · right
                      cases hra : racc with
                      | nil => rfl
                      | cons a t =>
                        rw [show ('/' :: a :: t) = [('/' : Char)] ++ (a :: t) from rfl]
                        rw [List.getLast?_append_of_ne_nil _ (by simp)]
                        rw [← hra]
                        exact hinv.lastCond.resolve_left (by rw [hra]; simp)
              · rw [normLoop_slashCopy2 _ _ _ _ _ _ hb hr2 hr2d]
                refine ih _ _ _ ⟨?_, ?_, ?_, ?_, ?_, ?_, ?_, ?_⟩ hfr hposr
                · intro hinf
                  rcases List.infix_cons_iff.1 hinf with hp | hi
                  · obtain ⟨t, ht⟩ := hp
                    simp only [List.cons_append, List.cons.injEq, List.nil_append] at ht
                    exact hnoSlashHead (by rw [← ht.2]; simp)
                  · exact hinv.noSS hi
                · intro hinf
                  rcases List.infix_cons_iff.1 hinf with hp | hi
                  · obtain ⟨t, ht⟩ := hp
                    simp only [List.cons_append, List.cons.injEq, List.nil_append] at ht
                    exact hnoDot t ht.2.symm
                  · exact hinv.noSDS hi
                · intro hinf
                  rcases List.infix_cons_iff.1 hinf with hp | hi
                  · obtain ⟨t, ht⟩ := hp
                    simp only [List.cons_append, List.cons.injEq, List.nil_append] at ht
                    exact hnoDDot t ht.2.symm
                  · exact hinv.noSDDS hi
                · intro r hr; cases hr
                · intro r hr; cases hr
                · intro _
                  refine ⟨by simp, by simp, fun x hx => ?_, fun hx => ?_, fun x hx => ?_⟩
                  · simp only [List.cons.injEq] at hx
                    exact hr2 hx.2.1
                  · simp only [List.cons.injEq] at hx
                    exact hr2d hx.2.1
                  · simp only [List.cons.injEq] at hx
                    exact hr2d hx.2.1
                · intro h0; cases h0
                · right
                  cases hra : racc with
                  | nil => rfl
                  | cons a t =>
                    rw [show ('/' :: a :: t) = [('/' : Char)] ++ (a :: t) from rfl]
                    rw [List.getLast?_append_of_ne_nil _ (by simp)]
                    rw [← hra]
                    exact hinv.lastCond.resolve_left (by rw [hra]; simp)
          · rw [normLoop_slashCopy1 _ _ _ _ _ _ hb hr hrd]
            refine ih _ _ _ ⟨?_, ?_, ?_, ?_, ?_, ?_, ?_, ?_⟩ hfr hposr
            · intro hinf
              rcases List.infix_cons_iff.1 hinf with hp | hi
              · obtain ⟨t, ht⟩ := hp
                simp only [List.cons_append, List.cons.injEq, List.nil_append] at ht
                exact hnoSlashHead (by rw [← ht.2]; simp)
              · exact hinv.noSS hi
            · intro hinf
              rcases List.infix_cons_iff.1 hinf with hp | hi
              · obtain ⟨t, ht⟩ := hp
                simp only [List.cons_append, List.cons.injEq, List.nil_append] at ht
                exact hnoDot t ht.2.symm
              · exact hinv.noSDS hi
            · intro hinf
              rcases List.infix_cons_iff.1 hinf with hp | hi
              · obtain ⟨t, ht⟩ := hp
                simp only [List.cons_append, List.cons.injEq, List.nil_append] at ht
                exact hnoDDot t ht.2.symm
              · exact hinv.noSDDS hi
            · intro r2 hr2x; cases hr2x
            · intro r2 hr2x; cases hr2x
            · intro _
              refine ⟨by simpa using hr, fun hx => ?_, fun x hx => ?_, fun hx => ?_,
                fun x hx => ?_⟩
              · simp only [List.cons.injEq] at hx
                exact hrd hx.1
              · simp only [List.cons.injEq] at hx
                exact hrd hx.1
              · simp only [List.cons.injEq] at hx
                exact hrd hx.1
              · simp only [List.cons.injEq] at hx
                exact hrd hx.1
            · intro h0; cases h0
            · right
              cases hra : racc with
              | nil => rfl
              | cons a t =>
                rw [show ('/' :: a :: t) = [('/' : Char)] ++ (a :: t) from rfl]
                rw [List.getLast?_append_of_ne_nil _ (by simp)]
                rw [← hra]
                exact hinv.lastCond.resolve_left (by rw [hra]; simp)
      · rw [normLoop_copy _ _ _ _ _ _ hb hc]
        have hra : racc ≠ [] := by
          intro h0
          rcases hinv.emptyCond h0 with h | h
          · cases h
          · simp only [List.head?_cons, Option.some.injEq] at h
            exact hc h
        have hlast : racc.getLast? = some '/' := hinv.lastCond.resolve_left hra
        refine ih _ _ _ ⟨?_, ?_, ?_, ?_, ?_, ?_, ?_, ?_⟩ hfr hposr
        · intro hinf
          rcases List.infix_cons_iff.1 hinf with hp | hi
          · obtain ⟨t, ht⟩ := hp
            simp only [List.cons_append, List.cons.injEq, List.nil_append] at ht
            exact hc ht.1.symm
          · exact hinv.noSS hi
        · intro hinf
          rcases List.infix_cons_iff.1 hinf with hp | hi
          · obtain ⟨t, ht⟩ := hp
            simp only [List.cons_append, List.cons.injEq, List.nil_append] at ht
            exact hc ht.1.symm
          · exact hinv.noSDS hi
        · intro hinf
          rcases List.infix_cons_iff.1 hinf with hp | hi
          · obtain ⟨t, ht⟩ := hp
            simp only [List.cons_append, List.cons.injEq, List.nil_append] at ht
            exact hc ht.1.symm
          · exact hinv.noSDDS hi
        · intro r hr
          simp only [List.cons.injEq] at hr
          have hsl := hinv.slashCond (by rw [hr.2]; simp)
          rw [← hr.1]
          exact hsl
        · intro r hr
          simp only [List.cons.injEq] at hr
          have hdc := hinv.dotCond r hr.2
          rw [← hr.1] at hdc ⊢
          exact hdc
        · intro hh
          simp only [List.head?_cons, Option.some.injEq] at hh
          exact absurd hh hc
        · intro h0; cases h0
        · right
          cases hra2 : racc with
          | nil => exact absurd hra2 hra
          | cons a t =>
            rw [show (c :: a :: t) = [c] ++ (a :: t) from rfl]
            rw [List.getLast?_append_of_ne_nil _ (by simp)]
            rw [← hra2]
            exact hlast

theorem getLast?_decomp (l : List Char) (a : Char) (h : l.getLast? = some a) :
    l.dropLast ++ [a] = l := by
  have hne : l ≠ [] := by intro h0; subst h0; simp at h
  have h2 := List.dropLast_append_getLast hne
  rw [List.getLast?_eq_getLast l hne, Option.some.injEq] at h
  rw [h] at h2
  exact h2

/-- Read the final invariant forward: the loop output (reversed back) is
in normal form, and starts with `/` unless empty. -/
theorem norminv_forward (racc : List Char) (hinv : NormInv racc []) :
    NormalForm racc.reverse ∧ (racc.reverse.head? = some '/' ∨ racc = []) := by
  refine ⟨⟨?_, ?_, ?_, ?_, ?_⟩, ?_⟩
  · intro hinf
    rw [show (['/', '/'] : List Char) = (['/', '/'] : List Char).reverse from by decide] at hinf
    exact hinv.noSS (List.reverse_infix.1 hinf)
  · intro hinf
    rw [show (['/', '.', '/'] : List Char)
      = (['/', '.', '/'] : List Char).reverse from by decide] at hinf
    exact hinv.noSDS (List.reverse_infix.1 hinf)
  · intro hinf
    rw [show (['/', '.', '.', '/'] : List Char)
      = (['/', '.', '.', '/'] : List Char).reverse from by decide] at hinf
    exact hinv.noSDDS (List.reverse_infix.1 hinf)
  · intro hsuf
    rw [show (['/', '.'] : List Char) = (['.', '/'] : List Char).reverse from by decide]
      at hsuf
    obtain ⟨t, ht⟩ := List.reverse_suffix.1 hsuf
    exact (hinv.dotCond t (by rw [← ht]; rfl)).2.1 rfl
  · intro hsuf
    rw [show (['/', '.', '.'] : List Char)
      = (['.', '.', '/'] : List Char).reverse from by decide] at hsuf
    obtain ⟨t, ht⟩ := List.reverse_suffix.1 hsuf
    exact (hinv.ddotCond t (by rw [← ht]; rfl)).2.2.2.1 rfl
  · cases hra : racc with
    | nil => right; rfl
    | cons a t =>
      left
      rw [List.head?_reverse]
      rw [← hra]
      exact hinv.lastCond.resolve_left (by rw [hra]; simp)

/-- The trailing-slash trim keeps normal form, yields a path that starts
with `/`, never ends with `/` except for the root, and does not grow
beyond `max 1` of its input length. -/
theorem trimSlash_norm (q0 : List Char) (hnf : NormalForm q0)
    (hhead : q0.head? = some '/' ∨ q0 = []) :
    NormalForm (trimSlash q0) ∧ (trimSlash q0).head? = some '/' ∧
    ((trimSlash q0).getLast? = some '/' → trimSlash q0 = ['/']) ∧
    (trimSlash q0).length ≤ max 1 q0.length := by
  by_cases hc : 1 < q0.length ∧ q0.getLast? = some '/'
  · have htrim : trimSlash q0 = q0.dropLast := by
      simp only [trimSlash, if_pos hc]
    have hq0 : q0.dropLast ++ ['/'] = q0 := getLast?_decomp q0 '/' hc.2
    have hpre : q0.dropLast <+: q0 := List.dropLast_prefix q0
    rw [htrim]
    refine ⟨⟨?_, ?_, ?_, ?_, ?_⟩, ?_, ?_, ?_⟩
    · intro hinf; exact hnf.1 (hinf.trans hpre.isInfix)
    · intro hinf; exact hnf.2.1 (hinf.trans hpre.isInfix)
    · intro hinf; exact hnf.2.2.1 (hinf.trans hpre.isInfix)
    · intro hsuf
      obtain ⟨s, hs⟩ := hsuf
      apply hnf.2.1
      refine ⟨s, [], ?_⟩
      rw [← hq0, ← hs]
      simp
    · intro hsuf
      obtain ⟨s, hs⟩ := hsuf
      apply hnf.2.2.1
      refine ⟨s, [], ?_⟩
      rw [← hq0, ← hs]
      simp
    · rcases hhead with hh | hh
      · cases hq : q0 with
        | nil => rw [hq] at hc; simp at hc
        | cons a t =>
          rw [hq] at hh
          simp only [List.head?_cons, Option.some.injEq] at hh
          subst hh
          cases ht : t with
          | nil =>
            rw [hq, ht] at hc
            simp at hc
          | cons b t2 =>
            simp
      · rw [hh] at hc; simp at hc
    · intro hl
      exfalso
      cases hdl : q0.dropLast with
      | nil => rw [hdl] at hl; cases hl
      | cons a t =>
        have hdec := getLast?_decomp q0.dropLast '/' (by rw [hdl] at hl ⊢; exact hl)
        apply hnf.1
        refine ⟨(q0.dropLast).dropLast, [], ?_⟩
        rw [← hq0]
        conv_rhs => rw [← hdec]
        simp
    · have := q0.length_dropLast
      omega
  · by_cases h0 : q0.length = 0
    · have hq : q0 = [] := List.length_eq_zero.1 h0
      subst hq
      have htrim : trimSlash [] = ['/'] := by simp [trimSlash]
      rw [htrim]
      refine ⟨⟨?_, ?_, ?_, ?_, ?_⟩, by simp, fun _ => rfl, by simp⟩
      all_goals decide
    · have htrim : trimSlash q0 = q0 := by
        simp only [trimSlash, if_neg hc, if_neg h0]
      rw [htrim]
      have hne : q0 ≠ [] := fun h => h0 (by rw [h]; rfl)
      have hh : q0.head? = some '/' := hhead.resolve_right hne
      refine ⟨hnf, hh, ?_, by omega⟩
      intro hl
      have h1 : ¬ 1 < q0.length := fun hgt => hc ⟨hgt, hl⟩
      have hlen1 : q0.length = 1 := by
        have := List.length_pos.2 hne
        omega
      cases hq : q0 with
      | nil => exact absurd hq hne
      | cons a t =>
        rw [hq] at hlen1
        simp only [List.length_cons, Nat.succ.injEq] at hlen1
        have ht : t = [] := List.length_eq_zero.1 hlen1
        subst ht
        rw [hq] at hl
        simp only [List.getLast?_singleton, Option.some.injEq] at hl
        rw [hl]

/-- C8 as amended: for an *absolute* path of length at most `PATH_MAX - 2`
— so that the normalize loop processes it without hitting the
`path_copy + PATH_MAX - 2` cut-off — a successful canonicalization is
idempotent: `canonpath` maps its own output to itself. -/
theorem C8_canonpath_idempotent_amended (PM : Nat)
    (fsStat : List Char → Option FileStat) (cwd p q : List Char)
    (habs : p.headD nul = '/') (hlen : p.length ≤ PM - 2)
    (h : canonpath PM fsStat cwd p = some q) :
    canonpath PM fsStat cwd q = some q := by
  have hpne : p ≠ [] := by
    intro h0
    rw [h0] at habs
    exact absurd habs (by decide)
  have hhp : p.head? = some '/' := by
    cases hp : p with
    | nil => exact absurd hp hpne
    | cons a t =>
      rw [hp] at habs
      simp only [List.headD_cons] at habs
      rw [habs]
      rfl
  have htake : p.take (PM - 1) = p := List.take_of_length_le (by omega)
  have hikeep : ¬ (p.headD nul ≠ '/') := by rw [habs]; simp
  simp only [canonpath, if_neg hikeep, htake] at h
  set N := normLoop (PM - 2) (p.length + 1) 0 [] p with hN
  have hinv0 : NormInv ([] : List Char) p := by
    refine ⟨?_, ?_, ?_, ?_, ?_, ?_, ?_, ?_⟩
    · intro hinf; have := hinf.length_le; simp at this
    · intro hinf; have := hinf.length_le; simp at this
    · intro hinf; have := hinf.length_le; simp at this
    · intro r hr; cases hr
    · intro r hr; cases hr
    · intro hh; cases hh
    · intro _; right; exact hhp
    · left; rfl
  have hinvN : NormInv N [] := by
    rw [hN]
    exact normLoop_inv (PM - 2) (p.length + 1) p 0 [] hinv0 (by omega) (by omega)
  obtain ⟨hnfN, hheadN⟩ := norminv_forward N hinvN
  have hheadN2 : N.reverse.head? = some '/' ∨ N.reverse = [] := by
    rcases hheadN with hh | hh
    · exact Or.inl hh
    · right; rw [hh]; rfl
  obtain ⟨hnfq, hheadq, hlastq, hlenq⟩ := trimSlash_norm N.reverse hnfN hheadN2
  have hqeq : q = trimSlash N.reverse ∧
      ∃ st, fsStat (trimSlash N.reverse) = some st ∧ st.st_mode &&& S_IROTH ≠ 0 := by
    split at h
    · rename_i st hst
      split at h
      · rename_i hro
        simp only [Option.some.injEq] at h
        exact ⟨h.symm, st, hst, hro⟩
      · cases h
    · cases h
  obtain ⟨hq, st, hstq, hro⟩ := hqeq
  have hlenN : N.length ≤ p.length := by
    have := normLoop_length (PM - 2) (p.length + 1) p 0 []
    simpa using this
  have hlen1 : 1 ≤ PM - 2 := by
    have : 1 ≤ p.length := List.length_pos.2 hpne
    omega
  have hlenq2 : q.length ≤ PM - 2 := by
    rw [hq]
    have : N.reverse.length = N.length := List.length_reverse N
    omega
  have hqhead : q.head? = some '/' := by rw [hq]; exact hheadq
  have hqne : q ≠ [] := by
    intro h0
    rw [h0] at hqhead
    cases hqhead
  have hqheadD : ¬ (q.headD nul ≠ '/') := by
    cases hqq : q with
    | nil => exact absurd hqq hqne
    | cons a t =>
      rw [hqq] at hqhead
      simp only [List.head?_cons, Option.some.injEq] at hqhead
      simp [hqhead]
  have htakeq : q.take (PM - 1) = q := List.take_of_length_le (by omega)
  simp only [canonpath, if_neg hqheadD, htakeq]
  have hlenq3 : (trimSlash N.reverse).length ≤ PM - 2 := by
    rw [← hq]
    exact hlenq2
  have hnormq : normLoop (PM - 2) (q.length + 1) 0 [] q = q.reverse ++ [] := by
    rw [hq]
    exact normLoop_copy_all (PM - 2) ((trimSlash N.reverse).length + 1)
      (trimSlash N.reverse) 0 [] hnfq (by omega) (by omega)
  rw [hnormq]
  have hrev : (q.reverse ++ []).reverse = q := by simp
  rw [hrev]
  have htrimq : trimSlash q = q := by
    by_cases hcq : 1 < q.length ∧ q.getLast? = some '/'
    · have := hlastq
      rw [← hq] at this
      have hq1 : q = ['/'] := this hcq.2
      rw [hq1] at hcq
      simp at hcq
    · simp only [trimSlash, if_neg hcq,
        if_neg (show ¬ q.length = 0 from fun h0 => hqne (List.length_eq_zero.1 h0))]
  rw [htrimq]
  rw [← hq] at hstq
  rw [hstq]
  show (if st.st_mode &&& S_IROTH ≠ 0 then some q else none) = some q
  rw [if_pos hro]

/-- Witness for C8: the amended idempotence theorem applied to the
absolute path `/a` with `PATH_MAX = 16` and a filesystem on which every
path stats world-readable. -/
theorem C8_canonpath_idempotent_amended_witness :
    (['/', 'a'] : List Char).headD nul = '/' ∧
    (['/', 'a'] : List Char).length ≤ 16 - 2 ∧
    canonpath 16 (fun _ => some ⟨4, 0, 0, 0⟩) [] ['/', 'a'] = some ['/', 'a'] ∧
    canonpath 16 (fun _ => some ⟨4, 0, 0, 0⟩) [] ['/', 'a'] = some ['/', 'a'] :=
  ⟨by decide, by decide, by decide,
    C8_canonpath_idempotent_amended 16 (fun _ => some ⟨4, 0, 0, 0⟩) [] ['/', 'a']
      ['/', 'a'] (by decide) (by decide) (by decide)⟩

/-- Copying a run of `n` ordinary characters through the normalize loop:
each is pushed onto the output and costs one unit of fuel and one
position. -/
theorem normLoop_replicate (bound : Nat) (n : Nat) :
    ∀ (fuel pos : Nat) (racc rest : List Char), pos + n ≤ bound →
      normLoop bound (fuel + n) pos racc (List.replicate n 'a' ++ rest)
        = normLoop bound fuel (pos + n) (List.replicate n 'a' ++ racc) rest := by
  induction n with
  | zero => intro fuel pos racc rest _; simp
  | succ n ih =>
    intro fuel pos racc rest h
    have h1 : List.replicate (n + 1) 'a' ++ rest
        = 'a' :: (List.replicate n 'a' ++ rest) := by
      rw [List.replicate_succ]
      rfl
    have h2 : fuel + (n + 1) = (fuel + n) + 1 := by omega
    rw [h1, h2, normLoop_copy bound (fuel + n) pos racc (List.replicate n 'a' ++ rest) 'a'
      (by omega) (by decide)]
    rw [ih fuel (pos + 1) ('a' :: racc) rest (by omega)]
    have h3 : pos + 1 + n = pos + (n + 1) := by omega
    have h4 : List.replicate n 'a' ++ 'a' :: racc
        = List.replicate (n + 1) 'a' ++ racc := by
      rw [List.replicate_succ']
      simp
    rw [h3, h4]

/-- Counterexample to C8 as stated by the spec: near the
`path_copy + PATH_MAX - 2` processing cut-off the normalize loop
truncates its output, so `canonpath` is not idempotent even when every
`stat` succeeds world-readable.  The 4095-byte absolute path
`/a…a/.x` (4091 `a`s) canonicalizes to `/a…a/.` — the cut-off drops the
final `x`, leaving a dangling `/.` — which canonicalizes further down to
`/a…a`. -/
theorem C8_counterexample :
    canonpath 4096 (fun _ => some ⟨4, 0, 0, 0⟩) []
        ('/' :: (List.replicate 4091 'a' ++ ['/', '.', 'x']))
      = some ('/' :: (List.replicate 4091 'a' ++ ['/', '.'])) ∧
    canonpath 4096 (fun _ => some ⟨4, 0, 0, 0⟩) []
        ('/' :: (List.replicate 4091 'a' ++ ['/', '.']))
      = some ('/' :: List.replicate 4091 'a') ∧
    ('/' :: (List.replicate 4091 'a' ++ ['/', '.']) : List Char)
      ≠ '/' :: List.replicate 4091 'a' := by
  have hrep : List.replicate 4091 'a' = 'a' :: List.replicate 4090 'a' := by
    rw [show (4091 : Nat) = 4090 + 1 from rfl, List.replicate_succ]
  have hrep2 : List.replicate 4091 'a' = List.replicate 4090 'a' ++ ['a'] := by
    rw [show (4091 : Nat) = 4090 + 1 from rfl, List.replicate_succ']
  refine ⟨?_, ?_, ?_⟩
  · have hhead : ¬ (('/' :: (List.replicate 4091 'a' ++ ['/', '.', 'x'])).headD nul ≠ '/') :=
      fun hcon => hcon rfl
    have htake : ('/' :: (List.replicate 4091 'a' ++ ['/', '.', 'x'])).take (4096 - 1)
        = '/' :: (List.replicate 4091 'a' ++ ['/', '.', 'x']) :=
      List.take_of_length_le (by
        simp only [List.length_cons, List.length_append, List.length_replicate,
          List.length_nil]
        omega)
    have hlen : ('/' :: (List.replicate 4091 'a' ++ ['/', '.', 'x']) : List Char).length
        = 4095 := by
      simp only [List.length_cons, List.length_append, List.length_replicate,
        List.length_nil]
    have hloop : normLoop (4096 - 2) (4095 + 1) 0 []
        ('/' :: (List.replicate 4091 'a' ++ ['/', '.', 'x']))
        = '.' :: '/' :: (List.replicate 4091 'a' ++ ['/']) :=
      calc normLoop (4096 - 2) (4095 + 1) 0 []
            ('/' :: (List.replicate 4091 'a' ++ ['/', '.', 'x']))
          = normLoop 4094 4095 1 ['/'] (List.replicate 4091 'a' ++ ['/', '.', 'x']) := by
            rw [hrep]
            exact normLoop_slashCopy1 4094 4095 0 []
              (List.replicate 4090 'a' ++ ['/', '.', 'x']) 'a'
              (by omega) (by decide) (by decide)
        _ = normLoop 4094 4 4092 (List.replicate 4091 'a' ++ ['/']) ['/', '.', 'x'] :=
            normLoop_replicate 4094 4091 4 1 ['/'] ['/', '.', 'x'] (by omega)
        _ = normLoop 4094 3 4093 ('/' :: (List.replicate 4091 'a' ++ ['/'])) ['.', 'x'] :=
            normLoop_slashCopy2 4094 3 4092 (List.replicate 4091 'a' ++ ['/']) [] 'x'
              (by omega) (by decide) (by decide)
        _ = normLoop 4094 2 4094 ('.' :: '/' :: (List.replicate 4091 'a' ++ ['/'])) ['x'] :=
            normLoop_copy 4094 2 4093 ('/' :: (List.replicate 4091 'a' ++ ['/'])) ['x'] '.'
              (by omega) (by decide)
        _ = '.' :: '/' :: (List.replicate 4091 'a' ++ ['/']) :=
            normLoop_stop 4094 1 4094 ('.' :: '/' :: (List.replicate 4091 'a' ++ ['/'])) [] 'x'
              (by omega)
    have hrev : ('.' :: '/' :: (List.replicate 4091 'a' ++ ['/'])).reverse
        = '/' :: (List.replicate 4091 'a' ++ ['/', '.']) := by
      simp only [List.reverse_cons, List.reverse_append, List.reverse_replicate,
        List.reverse_nil, List.nil_append, List.append_assoc, List.cons_append]
    have htrim : trimSlash ('/' :: (List.replicate 4091 'a' ++ ['/', '.']))
        = '/' :: (List.replicate 4091 'a' ++ ['/', '.']) := by
      have he : ('/' :: (List.replicate 4091 'a' ++ ['/', '.']) : List Char)
          = ('/' :: List.replicate 4091 'a' ++ ['/']) ++ ['.'] := by
        simp only [List.cons_append, List.append_assoc, List.nil_append]
      have hlast : ('/' :: (List.replicate 4091 'a' ++ ['/', '.'])).getLast? = some '.' := by
        rw [he, List.getLast?_append_of_ne_nil _ (by simp)]
        rfl
      have hcond : ¬ (1 < ('/' :: (List.replicate 4091 'a' ++ ['/', '.'])).length ∧
          ('/' :: (List.replicate 4091 'a' ++ ['/', '.'])).getLast? = some '/') := by
        intro hc
        rw [hlast] at hc
        exact absurd hc.2 (by decide)
      simp only [trimSlash, if_neg hcond]
      rw [if_neg (show ¬ ('/' :: (List.replicate 4091 'a' ++ ['/', '.']) : List Char).length = 0
        by simp only [List.length_cons]; omega)]
    simp only [canonpath, if_neg hhead, htake, hlen]
    rw [hloop, hrev, htrim]
    rw [if_pos (show 4 &&& S_IROTH ≠ 0 by decide)]
  · have hhead : ¬ (('/' :: (List.replicate 4091 'a' ++ ['/', '.'])).headD nul ≠ '/') :=
      fun hcon => hcon rfl
    have htake : ('/' :: (List.replicate 4091 'a' ++ ['/', '.'])).take (4096 - 1)
        = '/' :: (List.replicate 4091 'a' ++ ['/', '.']) :=
      List.take_of_length_le (by
        simp only [List.length_cons, List.length_append, List.length_replicate,
          List.length_nil]
        omega)
    have hlen : ('/' :: (List.replicate 4091 'a' ++ ['/', '.']) : List Char).length
        = 4094 := by
      simp only [List.length_cons, List.length_append, List.length_replicate,
        List.length_nil]
    have hloop : normLoop (4096 - 2) (4094 + 1) 0 []
        ('/' :: (List.replicate 4091 'a' ++ ['/', '.']))
        = List.replicate 4091 'a' ++ ['/'] :=
      calc normLoop (4096 - 2) (4094 + 1) 0 []
            ('/' :: (List.replicate 4091 'a' ++ ['/', '.']))
          = normLoop 4094 4094 1 ['/'] (List.replicate 4091 'a' ++ ['/', '.']) := by
            rw [hrep]
            exact normLoop_slashCopy1 4094 4094 0 []
              (List.replicate 4090 'a' ++ ['/', '.']) 'a'
              (by omega) (by decide) (by decide)
        _ = normLoop 4094 3 4092 (List.replicate 4091 'a' ++ ['/']) ['/', '.'] :=
            normLoop_replicate 4094 4091 3 1 ['/'] ['/', '.'] (by omega)
        _ = List.replicate 4091 'a' ++ ['/'] :=
            normLoop_dotEnd 4094 2 4092 (List.replicate 4091 'a' ++ ['/']) (by omega)
    have hrev : (List.replicate 4091 'a' ++ ['/']).reverse
        = '/' :: List.replicate 4091 'a' := by
      simp only [List.reverse_append, List.reverse_replicate, List.reverse_cons,
        List.reverse_nil, List.nil_append, List.cons_append]
    have htrim : trimSlash ('/' :: List.replicate 4091 'a')
        = '/' :: List.replicate 4091 'a' := by
      have he : ('/' :: List.replicate 4091 'a' : List Char)
          = ('/' :: List.replicate 4090 'a') ++ ['a'] := by
        rw [hrep2]
        rfl
      have hlast : ('/' :: List.replicate 4091 'a').getLast? = some 'a' := by
        rw [he, List.getLast?_append_of_ne_nil _ (by simp)]
        rfl
      have hcond : ¬ (1 < ('/' :: List.replicate 4091 'a').length ∧
          ('/' :: List.replicate 4091 'a').getLast? = some '/') := by
        intro hc
        rw [hlast] at hc
        exact absurd hc.2 (by decide)
      simp only [trimSlash, if_neg hcond]
      rw [if_neg (show ¬ ('/' :: List.replicate 4091 'a' : List Char).length = 0
        by simp only [List.length_cons]; omega)]
    simp only [canonpath, if_neg hhead, htake, hlen]
    rw [hloop, hrev, htrim]
    rw [if_pos (show 4 &&& S_IROTH ≠ 0 by decide)]
  · intro h
    have hl := congrArg List.length h
    simp only [List.length_cons, List.length_append, List.length_replicate,
      List.length_nil] at hl
    omega

/-! ## uh_index_add / uh_path_lookup (uhttpd-utils.c lines 550-743) -/

/-- `uh_index_add(filename)` pushes the new name onto the head of the
`uh_index_files` list, so the stored scan order is the reverse of the
registration order. -/
def uh_index_add (filename : List Char) (uh_index_files : List (List Char)) :
    List (List Char) :=
  filename :: uh_index_files

/-- The normalized string `canonpath` writes into `path_resolved` before its
final `stat`: this write happens whether or not the `stat`/permission check
succeeds, so a failing call still overwrites the buffer with it. -/
def canonRes (PM : Nat) (cwd path : List Char) : List Char :=
  let pcopy := if path.headD nul ≠ '/' then (cwd ++ '/' :: path).take (PM - 1)
    else path.take (PM - 1)
  trimSlash ((normLoop (PM - 2) (pcopy.length + 1) 0 [] pcopy).reverse)

theorem canonpath_eq_canonRes (PM : Nat) (fsStat : List Char → Option FileStat)
    (cwd path : List Char) :
    canonpath PM fsStat cwd path
      = match fsStat (canonRes PM cwd path) with
        | some st =>
          if st.st_mode &&& S_IROTH ≠ 0 then some (canonRes PM cwd path) else none
        | none => none := rfl

/-- One resolution attempt of the candidate loop with `no_symlinks` false:
`canonpath(path_info, path_phys)`.  Returns the new `path_phys` content and
whether the call succeeded; on failure the normalized string has still been
written over the buffer. -/
def canonStep (PM : Nat) (fsStat : List Char → Option FileStat) (cwd : List Char)
    (cand _old : List Char) : List Char × Bool :=
  match canonpath PM fsStat cwd cand with
  | some r => (r, true)
  | none => (canonRes PM cwd cand, false)

/-- `uh_realpath(path, resolved_path)` (lines 550-570): the external
`realpath` is the oracle `rp`; a resolution of length `≥ PATH_MAX` is
rejected without touching the buffer, otherwise it is copied into it. -/
def uh_realpath (PM : Nat) (rp : List Char → Option (List Char))
    (cand old : List Char) : List Char × Bool :=
  match rp cand with
  | some res => if PM ≤ res.length then (old, false) else (res, true)
  | none => (old, false)

/-- The "create canon path" loop of `uh_path_lookup` (lines 652-669),
counting `i` down from `strlen(buffer)`.  At every `i` where `buffer[i]` is
NUL (`i = buffer.length`) or `/`, the prefix `buffer[0..i]` (clamped to
`PATH_MAX - 1` bytes) is resolved into `path_phys`; on success the loop
breaks with `path_info` holding the unresolved suffix `&buffer[i]`, on
failure `path_info` holds the candidate and `path_phys` whatever the
resolver wrote. -/
def candLoop (step : List Char → List Char → List Char × Bool) (PM : Nat)
    (buffer : List Char) : Nat → List Char → List Char →
    List Char × List Char × Bool
  | 0, phys, info =>
    if 0 = buffer.length ∨ buffer.getD 0 nul = '/' then
      let cand := buffer.take (min 1 (PM - 1))
      let r := step cand phys
      if r.2 then (r.1, (buffer.drop 0).take (PM - 1), true)
      else (r.1, cand, false)
    else (phys, info, false)
  | i + 1, phys, info =>
    if i + 1 = buffer.length ∨ buffer.getD (i + 1) nul = '/' then
      let cand := buffer.take (min (i + 2) (PM - 1))
      let r := step cand phys
      if r.2 then (r.1, (buffer.drop (i + 1)).take (PM - 1), true)
      else candLoop step PM buffer i r.1 cand
    else candLoop step PM buffer i phys info

/-- The index-file scan of the directory branch (lines 721-733): each stored
name is appended to the directory path held in `buffer`
(`strncpy`-truncated to the remaining space), and the first candidate whose
`stat` is a regular file replaces `path_phys` (a `memcpy` of at most
`PATH_MAX` bytes) and the stat; if none hits, the directory path and stat
remain. -/
def indexScan (fsStat : List Char → Option FileStat) (BL PM : Nat)
    (buffer2 phys : List Char) (st : FileStat) :
    List (List Char) → List Char × FileStat
  | [] => (phys, st)
  | n :: rest =>
    let cand := buffer2 ++ n.take (BL - buffer2.length - 1)
    match fsStat cand with
    | some s =>
      if s.st_mode &&& S_IFREG ≠ 0 then (cand.take (PM - 1), s)
      else indexScan fsStat BL PM buffer2 phys st rest
    | none => indexScan fsStat BL PM buffer2 phys st rest

/-- `struct path_info` as filled by `uh_path_lookup`:  `name` is the pointer
`&path_phys[strlen(docroot)]`, `info` is `path_info` when non-empty, and
`redirected` records the 302 sent for a slash-less directory URL. -/
structure PathInfoM where
  root : List Char
  phys : List Char
  name : List Char
  info : Option (List Char)
  query : Option (List Char)
  redirected : Bool
  stat : FileStat
deriving DecidableEq

/-- `uh_path_lookup(cl, url)` (lines 594-743).  `PM` is `PATH_MAX`, `BL` is
`UH_LIMIT_MSGHEAD` (the size of `buffer`), `fsStat` the external `stat`,
`rp` the external `realpath`, `cwd` the `getcwd` result used by `canonpath`
for relative paths.  The query string is split off at the first `?` (with
no decode call when the `?` is the first byte); the rest is url-decoded
into the buffer after the docroot copy; the candidate loop resolves the
longest `/`-bounded prefix; the docroot jail check rejects a resolved path
not beginning with the docroot followed by `/` or end; a regular file is
returned as-is, a directory with no residual `path_info` gets a trailing
slash ensured, then either a 302 redirect (no trailing slash in the
request) or the index-file scan. -/
def uh_path_lookup (PM BL : Nat) (fsStat : List Char → Option FileStat)
    (rp : List Char → Option (List Char)) (cwd docroot : List Char)
    (no_sym : Bool) (uh_index_files : List (List Char))
    (url : Option (List Char)) : Option PathInfoM :=
  match url with
  | none => none
  | some u =>
    let buffer0 := docroot.take (BL - 1)
    let pre := u.takeWhile (fun c => c != '?')
    let post := u.dropWhile (fun c => c != '?')
    let query : Option (List Char) :=
      match post with
      | [] => none
      | _ :: tail => if tail ≠ [] then some tail else none
    let src := if post = [] then u else pre
    match uh_urldecode (BL - docroot.length - 1) src with
    | Except.error _ => none
    | Except.ok decoded =>
      let buffer := buffer0 ++ decoded
      let slash := buffer.getD (buffer.length - 1) nul == '/'
      let step := if no_sym then uh_realpath PM rp else canonStep PM fsStat cwd
      let r0 := candLoop step PM buffer buffer.length [] []
      let phys0 := r0.1
      let info0 := r0.2.1
      if (¬ docroot <+: phys0) ∨
          (phys0.getD docroot.length nul ≠ nul ∧
           phys0.getD docroot.length nul ≠ '/') then
        none
      else
        match fsStat phys0 with
        | none => none
        | some st =>
          if st.st_mode &&& S_IFREG ≠ 0 then
            some { root := docroot, phys := phys0,
                   name := phys0.drop docroot.length,
                   info := if info0 ≠ [] then some info0 else none,
                   query := query, redirected := false, stat := st }
          else if st.st_mode &&& S_IFDIR ≠ 0 ∧ info0.length = 0 then
            let phys1 := if phys0.getD (phys0.length - 1) nul ≠ '/'
              then phys0 ++ ['/'] else phys0
            let buffer2 := phys1.take (BL - 1)
            if slash then
              let ri := indexScan fsStat BL PM buffer2 phys1 st uh_index_files
              some { root := docroot, phys := ri.1,
                     name := ri.1.drop docroot.length,
                     info := none, query := query, redirected := false,
                     stat := ri.2 }
            else
              some { root := docroot, phys := phys1,
                     name := phys1.drop docroot.length,
                     info := none, query := query, redirected := true,
                     stat := st }
          else none

theorem prefix_take_of_prefix {pre l : List Char} (n : Nat) (h : pre <+: l)
    (hn : pre.length ≤ n) : pre <+: l.take n := by
  obtain ⟨t, rfl⟩ := h
  rw [List.take_append_eq_append_take, List.take_of_length_le hn]
  exact ⟨t.take (n - pre.length), rfl⟩

theorem getD_take_of_lt (l : List Char) (n i : Nat) (d : Char) (h : i < n) :
    (l.take n).getD i d = l.getD i d := by
  rw [List.getD_eq_getElem?_getD, List.getD_eq_getElem?_getD,
    List.getElem?_take_of_lt h]

/-- The "ensure trailing slash" fixup of the directory branch (lines
694-696) keeps the jail facts and forces the physical path strictly longer
than a docroot that does not itself end in `/`. -/
theorem ensureSlash_facts (docroot phys0 phys1 : List Char)
    (hdef : phys1 = if phys0.getD (phys0.length - 1) nul ≠ '/'
      then phys0 ++ ['/'] else phys0)
    (hpre : docroot <+: phys0)
    (hbyte : phys0.getD docroot.length nul = nul ∨
      phys0.getD docroot.length nul = '/')
    (hsl : docroot.getLast? ≠ some '/') :
    docroot <+: phys1 ∧
    (phys1.getD docroot.length nul = nul ∨
      phys1.getD docroot.length nul = '/') ∧
    docroot.length < phys1.length := by
  have hlen0 : docroot.length ≤ phys0.length := hpre.length_le
  by_cases heq : phys0.length = docroot.length
  · have hphys0 : docroot = phys0 := List.IsPrefix.eq_of_length hpre heq.symm
    have hlast : phys0.getD (phys0.length - 1) nul ≠ '/' := by
      rw [← hphys0]
      intro hc
      apply hsl
      rw [List.getLast?_eq_get?, List.get?_eq_getElem?]
      rw [List.getD_eq_getElem?_getD] at hc
      cases hg : docroot[docroot.length - 1]? with
      | none =>
        rw [hg] at hc
        simp only [Option.getD_none] at hc
        exact absurd hc (by decide)
      | some c =>
        rw [hg] at hc
        simp only [Option.getD_some] at hc
        rw [hc]
    rw [hdef, if_pos hlast, ← hphys0]
    refine ⟨List.prefix_append docroot ['/'], Or.inr ?_, by
      simp only [List.length_append, List.length_cons, List.length_nil]; omega⟩
    rw [List.getD_append_right docroot ['/'] nul docroot.length (le_refl _)]
    simp
  · have hlt : docroot.length < phys0.length := by omega
    rw [hdef]
    by_cases hc : phys0.getD (phys0.length - 1) nul ≠ '/'
    · rw [if_pos hc]
      refine ⟨hpre.trans (List.prefix_append phys0 ['/']), ?_, by
        simp only [List.length_append, List.length_cons, List.length_nil]; omega⟩
      rw [List.getD_append phys0 ['/'] nul docroot.length hlt]
      exact hbyte
    · rw [if_neg hc]
      exact ⟨hpre, hbyte, hlt⟩

/-- The index-file scan of the directory branch keeps the jail facts:
every winning candidate extends the directory path, which begins with the
docroot and carries the byte at `strlen(docroot)` within the limits
`UH_LIMIT_MSGHEAD` and `PATH_MAX`. -/
theorem indexScan_jail (fsStat : List Char → Option FileStat) (BL PM : Nat)
    (docroot phys1 : List Char) (st : FileStat) (idxs : List (List Char))
    (hpre1 : docroot <+: phys1)
    (hbyte1 : phys1.getD docroot.length nul = nul ∨
      phys1.getD docroot.length nul = '/')
    (hlen1 : docroot.length < phys1.length)
    (hbl : docroot.length + 1 < BL) (hpm : docroot.length + 1 < PM) :
    docroot <+:
      (indexScan fsStat BL PM (phys1.take (BL - 1)) phys1 st idxs).1 ∧
    ((indexScan fsStat BL PM (phys1.take (BL - 1)) phys1 st idxs).1.getD
        docroot.length nul = nul ∨
     (indexScan fsStat BL PM (phys1.take (BL - 1)) phys1 st idxs).1.getD
        docroot.length nul = '/') := by
  have hpre2 : docroot <+: phys1.take (BL - 1) :=
    prefix_take_of_prefix (BL - 1) hpre1 (by omega)
  have hbyte2 : (phys1.take (BL - 1)).getD docroot.length nul
      = phys1.getD docroot.length nul :=
    getD_take_of_lt phys1 (BL - 1) docroot.length nul (by omega)
  have hlen2 : docroot.length < (phys1.take (BL - 1)).length := by
    rw [List.length_take]
    omega
  induction idxs with
  | nil => exact ⟨hpre1, hbyte1⟩
  | cons n rest ih =>
    simp only [indexScan]
    split
    · rename_i s hs
      split
      · constructor
        · exact prefix_take_of_prefix (PM - 1)
            (hpre2.trans (List.prefix_append _ _)) (by omega)
        · rw [getD_take_of_lt _ (PM - 1) docroot.length nul (by omega)]
          rw [List.getD_append _ _ nul docroot.length hlen2]
          rw [hbyte2]
          exact hbyte1
      · exact ih
    · exact ih

/-- C1 as amended: the docroot jail invariant of `uh_path_lookup` holds for
every URL, filesystem, `realpath` oracle and `no_symlinks` setting,
provided the configured docroot is non-empty, does not end in `/`, and is
at least two bytes shorter than both `UH_LIMIT_MSGHEAD` and `PATH_MAX`:
every returned `PathInfo` has a `phys` that begins with the docroot and
whose byte at `strlen(docroot)` is `/` or the end of the string.  (The
spec states this for every configuration; it fails for the docroot `/`,
whose index-file resolution puts an ordinary byte at position 1 — see the
counterexample.) -/
theorem C1_jail_amended (PM BL : Nat) (fsStat : List Char → Option FileStat)
    (rp : List Char → Option (List Char)) (cwd docroot : List Char)
    (no_sym : Bool) (idxs : List (List Char)) (url : Option (List Char))
    (p : PathInfoM)
    (hsl : docroot.getLast? ≠ some '/')
    (hbl : docroot.length + 1 < BL)
    (hpm : docroot.length + 1 < PM)
    (h : uh_path_lookup PM BL fsStat rp cwd docroot no_sym idxs url = some p) :
    docroot <+: p.phys ∧
      (p.phys.getD docroot.length nul = nul ∨
       p.phys.getD docroot.length nul = '/') := by
  cases url with
  | none => exact Option.noConfusion h
  | some u =>
    simp only [uh_path_lookup] at h
    split at h
    · exact Option.noConfusion h
    · rename_i decoded hdec
      set r0 := candLoop
        (if no_sym then uh_realpath PM rp else canonStep PM fsStat cwd) PM
        (docroot.take (BL - 1) ++ decoded)
        (docroot.take (BL - 1) ++ decoded).length [] [] with hr0
      split at h
      · exact Option.noConfusion h
      · rename_i hjail
        push_neg at hjail
        have hbyte : r0.1.getD docroot.length nul = nul ∨
            r0.1.getD docroot.length nul = '/' := by
          by_cases hx : r0.1.getD docroot.length nul = nul
          · exact Or.inl hx
          · exact Or.inr (hjail.2 hx)
        split at h
        · exact Option.noConfusion h
        · rename_i st hst
          split at h
          · rename_i hreg
            injection h with h2
            subst h2
            exact ⟨hjail.1, hbyte⟩
          · split at h
            · rename_i hdir
              obtain ⟨hp1, hb1, hl1⟩ := ensureSlash_facts docroot r0.1
                (if r0.1.getD (r0.1.length - 1) nul ≠ '/'
                  then r0.1 ++ ['/'] else r0.1) rfl hjail.1 hbyte hsl
              split at h
              · injection h with h2
                subst h2
                exact indexScan_jail fsStat BL PM docroot
                  (if r0.1.getD (r0.1.length - 1) nul ≠ '/'
                    then r0.1 ++ ['/'] else r0.1) st idxs hp1 hb1 hl1 hbl hpm
              · injection h with h2
                subst h2
                exact ⟨hp1, hb1⟩
            · exact Option.noConfusion h

/-- Witness for C1: a lookup of `/` under docroot `/www` (a directory on
the oracle filesystem) returns the directory `PathInfo` with
`phys = /www/`, which begins with the docroot followed by `/`. -/
theorem C1_jail_amended_witness :
    (String.toList "/www").getLast? ≠ some '/' ∧
    (String.toList "/www").length + 1 < 64 ∧
    String.toList "/www" <+: String.toList "/www/" ∧
    ((String.toList "/www/").getD (String.toList "/www").length nul = nul ∨
     (String.toList "/www/").getD (String.toList "/www").length nul = '/') :=
  ⟨by decide, by decide,
    C1_jail_amended 64 64
      (fun q => if q = String.toList "/www" then some ⟨16388, 0, 0, 0⟩ else none)
      (fun _ => none) [] (String.toList "/www") false [] (some ['/'])
      { root := String.toList "/www", phys := String.toList "/www/",
        name := ['/'], info := none, query := none, redirected := false,
        stat := ⟨16388, 0, 0, 0⟩ }
      (by decide) (by decide) (by decide) (by decide)⟩

/-- Filesystem oracle of the C1 counterexample: the root directory is
world-readable and `/index.html` is a regular file. -/
def fsC1 : List Char → Option FileStat := fun q =>
  if q = ['/'] then some ⟨16388, 0, 0, 0⟩
  else if q = String.toList "/index.html" then some ⟨32768, 0, 0, 0⟩
  else none

/-- Counterexample to C1 as stated by the spec: with docroot `/` and a
registered index file, the lookup of `/` resolves to `/index.html`, whose
byte at `strlen(docroot) = 1` is `i` — neither `/` nor the end of the
string, violating the spec's unqualified jail byte condition. -/
theorem C1_counterexample :
    (uh_path_lookup 64 64 fsC1 (fun _ => none) [] ['/'] false
        (uh_index_add (String.toList "index.html") [])
        (some ['/'])).map PathInfoM.phys
      = some (String.toList "/index.html") ∧
    ¬ ((String.toList "/index.html").getD (['/'] : List Char).length nul = nul ∨
       (String.toList "/index.html").getD (['/'] : List Char).length nul = '/') :=
  ⟨by decide, by decide⟩

/-- Spec-side definition, following the spec's words for the index-file
fallback: for each index name of `order` in turn, `stat` the directory
path with the name appended; the first regular file gives the new
`phys`/`stat`, and if none is found the directory's own path and stat are
kept. -/
def specIndexLookup (fsStat : List Char → Option FileStat) (BL PM : Nat)
    (buffer2 phys : List Char) (st : FileStat) (order : List (List Char)) :
    List Char × FileStat :=
  match order.find? (fun n =>
      match fsStat (buffer2 ++ n.take (BL - buffer2.length - 1)) with
      | some s => decide (s.st_mode &&& S_IFREG ≠ 0)
      | none => false) with
  | some n =>
    match fsStat (buffer2 ++ n.take (BL - buffer2.length - 1)) with
    | some s => ((buffer2 ++ n.take (BL - buffer2.length - 1)).take (PM - 1), s)
    | none => (phys, st)
  | none => (phys, st)

theorem foldl_index_add (cfg : List (List Char)) :
    ∀ acc, cfg.foldl (fun acc n => uh_index_add n acc) acc
      = cfg.reverse ++ acc := by
  induction cfg with
  | nil => intro acc; simp
  | cons c rest ih =>
    intro acc
    rw [List.foldl_cons, ih (uh_index_add c acc)]
    simp [uh_index_add]

theorem indexScan_eq_spec (fsStat : List Char → Option FileStat) (BL PM : Nat)
    (buffer2 phys : List Char) (st : FileStat) :
    ∀ l, indexScan fsStat BL PM buffer2 phys st l
      = specIndexLookup fsStat BL PM buffer2 phys st l := by
  intro l
  induction l with
  | nil => rfl
  | cons n rest ih =>
    simp only [indexScan, specIndexLookup]
    cases hs : fsStat (buffer2 ++ n.take (BL - buffer2.length - 1)) with
    | none =>
      simp only [List.find?_cons, hs]
      exact ih
    | some s =>
      by_cases hreg : s.st_mode &&& S_IFREG ≠ 0
      · have hd : decide (s.st_mode &&& S_IFREG ≠ 0) = true := decide_eq_true hreg
        simp only [List.find?_cons, hs, hd]
        rw [if_pos hreg]
      · have hd : decide (s.st_mode &&& S_IFREG ≠ 0) = false := decide_eq_false hreg
        simp only [List.find?_cons, hs, hd]
        rw [if_neg hreg]
        exact ih

/-- C4 as amended: the index-file scan of `uh_path_lookup` tries the names
registered through `uh_index_add` in the *reverse* of their registration
order (the list is built by prepending), and within that order it follows
the spec: the first name whose `stat` is a regular file replaces
`phys`/`stat`, and when none is found the `PathInfo` keeps the directory's
own path and stat.  (The spec's claim that the configured/insertion order
is tried first-to-last is refuted by the counterexample.) -/
theorem C4_index_fallback_amended (fsStat : List Char → Option FileStat)
    (BL PM : Nat) (buffer2 phys : List Char) (st : FileStat)
    (cfg : List (List Char)) :
    indexScan fsStat BL PM buffer2 phys st
        (cfg.foldl (fun acc n => uh_index_add n acc) [])
      = specIndexLookup fsStat BL PM buffer2 phys st cfg.reverse := by
  rw [foldl_index_add cfg [], List.append_nil]
  exact indexScan_eq_spec fsStat BL PM buffer2 phys st cfg.reverse

/-- Filesystem oracle of the C4 counterexample: `/www` is a world-readable
directory and both `/www/a.html` and `/www/b.html` are regular files (with
distinguishable stats). -/
def fsC4 : List Char → Option FileStat := fun q =>
  if q = String.toList "/www" then some ⟨16388, 0, 0, 0⟩
  else if q = String.toList "/www/a.html" then some ⟨32768, 0, 0, 1⟩
  else if q = String.toList "/www/b.html" then some ⟨32768, 0, 0, 2⟩
  else none

/-- Counterexample to C4 as stated by the spec: registering `a.html` and
then `b.html` and requesting the directory `/` yields `/www/b.html`, even
though `a.html` was configured first and exists as a regular file — the
scan follows the reversed (prepend) order, not the configured order. -/
theorem C4_counterexample :
    (uh_path_lookup 64 64 fsC4 (fun _ => none) []
        (String.toList "/www") false
        (uh_index_add (String.toList "b.html")
          (uh_index_add (String.toList "a.html") []))
        (some ['/'])).map PathInfoM.phys
      = some (String.toList "/www/b.html") ∧
    fsC4 (String.toList "/www/a.html") = some ⟨32768, 0, 0, 1⟩ ∧
    String.toList "/www/b.html" ≠ String.toList "/www/a.html" :=
  ⟨by decide, by decide, by decide⟩

end Uhttpd
